import Mathlib

/-!
Verification of the TrustRootAssembler metadata-resolution and repository-assembly
pipeline (src/assemble/main.go), as a shallow embedding in Lean.

Strings are modelled as lists of characters.  Go compares strings byte-wise on
their UTF-8 encoding; byte-wise order of UTF-8 encodings coincides with
code-point order, so the character-wise order below is exactly Go string order.
-/

namespace TrustRootAssembler

/-- Go string ordering (byte-wise less-or-equal on strings), as used by
sort.Strings in GetLatestMetadataName.  Characters are compared by code point,
which agrees with byte-wise comparison of the UTF-8 encodings. -/
def goLe : List Char → List Char → Bool
  | [], _ => true
  | _ :: _, [] => false
  | a :: as, b :: bs =>
    if a.toNat < b.toNat then true
    else if b.toNat < a.toNat then false
    else goLe as bs

/-- Propositional form of goLe, used as the sorting relation. -/
def goLeR (a b : List Char) : Prop := goLe a b = true

instance : DecidableRel goLeR := fun a b => inferInstanceAs (Decidable (_ = true))

/-- Embedding of the Go regexp search performed once per listing line in
GetLatestMetadataName: re.FindStringSubmatch with the pattern built by
fmt.Sprintf of one-or-more digits, a literal dot, then the quoted metadata
pattern suffix.  Go regexp matching is leftmost-first with a greedy digit
class; because the character after a maximal digit run is never a digit, the
greedy run followed by the literal dot check is exactly the regexp behaviour,
and a start position strictly inside a digit run matches only if the start of
the run does, so scanning character by character is leftmost search.
Returns the text of the first match in the line, if any. -/
def findVersionMatch (suffix : List Char) : List Char → Option (List Char)
  | [] => none
  | c :: rest =>
    if c.isDigit then
      let run := (c :: rest).takeWhile Char.isDigit
      let post := (c :: rest).dropWhile Char.isDigit
      if ('.' :: suffix).isPrefixOf post then some (run ++ '.' :: suffix)
      else findVersionMatch suffix rest
    else findVersionMatch suffix rest

/-- Embedding of strings.Split(body, newline) from GetLatestMetadataName. -/
def splitLines : List Char → List (List Char)
  | [] => [[]]
  | c :: rest =>
    match splitLines rest with
    | [] => [[c]]
    | l :: ls => if c = '\n' then [] :: l :: ls else (c :: l) :: ls

/-- The files slice built by the GetLatestMetadataName loop: one appended
submatch per line on which the pattern matches. -/
def collectCandidates (suffix : List Char) (body : List Char) : List (List Char) :=
  (splitLines body).filterMap (findVersionMatch suffix)

/-- Pure core of GetLatestMetadataName, given the already-fetched listing
body: build the candidate list, fail if it is empty, otherwise sort with Go
string order and return the last element. -/
def getLatestMetadataName (body : List Char) (suffix : List Char) :
    Except String (List Char) :=
  let files := collectCandidates suffix body
  if files.isEmpty then
    .error "no metadata files matching pattern found in mirror directory"
  else
    .ok ((List.insertionSort goLeR files).getLastD [])

/-! Encoder: embedding of encoding/base64 StdEncoding, the external standard
library encoder called by EncodeBase64 on the bytes read from a file.  Bytes
are modelled as natural numbers below 256. -/

/-- The standard base64 alphabet used by base64.StdEncoding. -/
def b64Alphabet : List Char :=
  "ABCDEFGHIJKLMNOPQRSTUVWXYZabcdefghijklmnopqrstuvwxyz0123456789+/".toList

/-- Character for a 6-bit group. -/
def b64Char (n : Nat) : Char := b64Alphabet.getD n 'A'

/-- Embedding of base64.StdEncoding.EncodeToString: three input bytes become
four alphabet characters; a final group of one or two bytes is padded with
equal signs; no line wrapping. -/
def encodeBase64 : List Nat → List Char
  | [] => []
  | [b1] => [b64Char (b1 / 4), b64Char (b1 % 4 * 16), '=', '=']
  | [b1, b2] =>
    [b64Char (b1 / 4), b64Char (b1 % 4 * 16 + b2 / 16), b64Char (b2 % 16 * 4), '=']
  | b1 :: b2 :: b3 :: rest =>
    b64Char (b1 / 4) :: b64Char (b1 % 4 * 16 + b2 / 16) ::
      b64Char (b2 % 16 * 4 + b3 / 64) :: b64Char (b3 % 64) :: encodeBase64 rest

/-- Index of a character in the standard base64 alphabet. -/
def b64Index (c : Char) : Option Nat := b64Alphabet.findIdx? (fun d => d = c)

/-- Standard base64 decoding (the inverse direction of the Encoder round-trip
property): four characters at a time, with an equals-padded final group. -/
def decodeBase64 : List Char → Option (List Nat)
  | [] => some []
  | x :: y :: z :: w :: rest =>
    if z = '=' && w = '=' && rest.isEmpty then do
      let a ← b64Index x
      let b ← b64Index y
      pure [a * 4 + b / 16]
    else if w = '=' && rest.isEmpty then do
      let a ← b64Index x
      let b ← b64Index y
      let c ← b64Index z
      pure [a * 4 + b / 16, b % 16 * 16 + c / 4]
    else do
      let a ← b64Index x
      let b ← b64Index y
      let c ← b64Index z
      let d ← b64Index w
      let tail ← decodeBase64 rest
      pure ((a * 4 + b / 16) :: (b % 16 * 16 + c / 4) :: (c % 4 * 64 + d) :: tail)
  | _ => none

/-! Manifest Emitter: the resource name is built in main by
strings.ReplaceAll(mirror, scheme, empty) followed by a dash and
time.Now().Unix() rendered in decimal. -/

/-- Scanner for strings.ReplaceAll(s, p :: ps, empty): scan left to right,
deleting each non-overlapping occurrence of the pattern and continuing after
it.  The first argument counts characters of a recognised occurrence still to
be consumed, so the recursion is structural on the string.  The pattern is
passed as head and tail so that it is never empty. -/
def replaceScan (p : Char) (ps : List Char) : Nat → List Char → List Char
  | _, [] => []
  | k + 1, _ :: rest => replaceScan p ps k rest
  | 0, c :: rest =>
    if (p :: ps).isPrefixOf (c :: rest) then replaceScan p ps ps.length rest
    else c :: replaceScan p ps 0 rest

/-- Embedding of strings.ReplaceAll(s, p :: ps, empty). -/
def replaceAllWithEmpty (p : Char) (ps : List Char) (s : List Char) : List Char :=
  replaceScan p ps 0 s

/-- Decimal digit character. -/
def digitChar : Nat → Char
  | 0 => '0' | 1 => '1' | 2 => '2' | 3 => '3' | 4 => '4'
  | 5 => '5' | 6 => '6' | 7 => '7' | 8 => '8' | _ => '9'

/-- Fuelled decimal rendering: the fuel only bounds the recursion depth and
any fuel above the number itself is enough. -/
def natDigitsAux : Nat → Nat → List Char
  | 0, _ => []
  | fuel + 1, n =>
    if n < 10 then [digitChar n] else natDigitsAux fuel (n / 10) ++ [digitChar (n % 10)]

/-- Decimal rendering of a natural number, most significant digit first, as
produced by the Sprintf decimal verb for the Unix timestamp. -/
def natDigits (n : Nat) : List Char := natDigitsAux (n + 1) n

/-- The fixed URL scheme string removed from the mirror address. -/
def httpsScheme : List Char := "https://".toList

/-- Embedding of the resource-name expression in the trustRootYAML Sprintf:
strings.ReplaceAll of the scheme with the empty string, a dash, and the Unix
timestamp in seconds. -/
def resourceName (mirror : List Char) (now : Nat) : List Char :=
  replaceAllWithEmpty 'h' "ttps://".toList mirror ++ '-' :: natDigits now

/-- Embedding of the full TrustRoot custom-resource document printed by main,
with the two base64 fields spliced in. -/
def trustRootManifest (mirror : List Char) (now : Nat)
    (b64root b64archive : List Char) : List Char :=
  "apiVersion: policy.sigstore.dev/v1alpha1\nkind: TrustRoot\nmetadata:\n  name: ".toList
    ++ resourceName mirror now
    ++ "\nspec:\n  repository:\n    root: |-\n      ".toList ++ b64root
    ++ "\n    mirrorFS: |-\n      ".toList ++ b64archive ++ "\n".toList

/-! Archiver: embedding of CompressDirectory.  A directory tree is a nested
inductive of files (byte contents) and directories; directory entries are kept
as their own inductive so that all recursion is structural.  The produced
archive is modelled as the list of tar entries written by the walk - an entry
records the header name (the path relative to the source root), whether the
header describes a directory, and the raw bytes written for a regular file.
The gzip and tar byte serialisation around these entries is the external
archive/tar and compress/gzip libraries and is lossless; filesystem metadata
such as permission bits is not modelled. -/

mutual
inductive FSTree where
  | file (content : List Nat)
  | dir (entries : FSEntries)
inductive FSEntries where
  | nil
  | cons (name : List Char) (child : FSTree) (rest : FSEntries)
end

/-- Directory entries as a plain list of name-subtree pairs. -/
def FSEntries.toList : FSEntries → List (List Char × FSTree)
  | .nil => []
  | .cons n t rest => (n, t) :: rest.toList

/-- Rebuild directory entries from a list of name-subtree pairs. -/
def FSEntries.ofList : List (List Char × FSTree) → FSEntries
  | [] => .nil
  | (n, t) :: rest => .cons n t (FSEntries.ofList rest)

/-- Order on directory entries by name, in Go string order; filepath.Walk
visits each directory's entries sorted by name. -/
def entryLe (a b : List Char × FSTree) : Prop := goLeR a.1 b.1

instance : DecidableRel entryLe := fun a b => inferInstanceAs (Decidable (_ = true))

/-- Sort one directory level by entry name. -/
def sortPairs (es : FSEntries) : FSEntries :=
  .ofList (List.insertionSort entryLe es.toList)

mutual
/-- Recursively sort every directory level by name: the enumeration order
used by filepath.Walk over the whole tree. -/
def sortTree : FSTree → FSTree
  | .file c => .file c
  | .dir es => .dir (sortPairs (sortEntriesRec es))
def sortEntriesRec : FSEntries → FSEntries
  | .nil => .nil
  | .cons n t rest => .cons n (sortTree t) (sortEntriesRec rest)
end

/-- One tar entry written by CompressDirectory: header name (relative path),
directory flag, and the file bytes copied after the header for regular
files. -/
structure TarEntry where
  name : List Char
  dirFlag : Bool
  content : List Nat
deriving DecidableEq

/-- Relative path of a child: filepath.Rel yields the bare name for a direct
child of the source root and parent-slash-name below that. -/
def childPath (parent name : List Char) : List Char :=
  if parent.isEmpty then name else parent ++ '/' :: name

mutual
/-- Tar entries emitted by the walk callback for one subtree located at the
given relative path: a header for the entry itself (with file contents copied
for a regular file), then, for directories, the entries of all children. -/
def walkTree (path : List Char) : FSTree → List TarEntry
  | .file c => [⟨path, false, c⟩]
  | .dir es => ⟨path, true, []⟩ :: walkEntriesAux path es
def walkEntriesAux (path : List Char) : FSEntries → List TarEntry
  | .nil => []
  | .cons n t rest => walkTree (childPath path n) t ++ walkEntriesAux path rest
end

/-- Embedding of CompressDirectory: walk the source tree in name-sorted
order; the source root itself (relative path dot) is skipped, so its children
are emitted with their bare names as header names.  Walking a source path
that is not a directory visits only the root entry, which is skipped. -/
def compressDirectory (t : FSTree) : List TarEntry :=
  match sortTree t with
  | .file _ => []
  | .dir es => walkEntriesAux [] es

/-- Specification-side listing of a tree: the same relative-path entries read
directly off the tree in declaration order, with no sorting. -/
def treeListing (t : FSTree) : List TarEntry :=
  match t with
  | .file _ => []
  | .dir es => walkEntriesAux [] es

/-- Split a relative path into its slash-separated components. -/
def splitPath : List Char → List (List Char)
  | [] => [[]]
  | c :: rest =>
    match splitPath rest with
    | [] => [[c]]
    | l :: ls => if c = '/' then [] :: l :: ls else (c :: l) :: ls

/-- Join path components with slashes - the inverse direction of
splitPath. -/
def joinComponents : List (List Char) → List Char
  | [] => []
  | [n] => n
  | n :: rest => n ++ '/' :: joinComponents rest

/-- A tar entry describes a filesystem node: matching directory flag, and for
a regular file the copied bytes. -/
def matchesNode (e : TarEntry) : FSTree → Prop
  | .file c => e.dirFlag = false ∧ e.content = c
  | .dir _ => e.dirFlag = true ∧ e.content = []

mutual
/-- Filesystem lookup of a path given as a component list, as an extracting
tool would resolve an archive entry name against the original tree. -/
def lookupPath : FSTree → List (List Char) → Option FSTree
  | t, [] => some t
  | .file _, _ :: _ => none
  | .dir es, n :: rest => lookupEntries es n rest
def lookupEntries : FSEntries → List Char → List (List Char) → Option FSTree
  | .nil, _, _ => none
  | .cons m t others, n, rest =>
    if m = n then lookupPath t rest else lookupEntries others n rest
end

/-- Whether a directory level already contains an entry with this name. -/
def nameMem (n : List Char) : FSEntries → Bool
  | .nil => false
  | .cons m _ rest => m = n || nameMem n rest

/-- Name well-formedness of one directory level: entry names are non-empty,
contain no slash, and are unique within the level. -/
def validNames : FSEntries → Bool
  | .nil => true
  | .cons n _ rest => !n.isEmpty && decide ('/' ∉ n) && !nameMem n rest && validNames rest

mutual
/-- Well-formedness of a tree as a real directory tree: every level has
well-formed names. -/
def validTree : FSTree → Bool
  | .file _ => true
  | .dir es => validNames es && validEntries es
def validEntries : FSEntries → Bool
  | .nil => true
  | .cons _ t rest => validTree t && validEntries rest
end

/-! Pipeline: embedding of main.  The run interacts with an environment that
fixes the outcome of every external effect: the HTTP responses of the mirror,
success of filesystem operations, and the behaviour of the external sigstore
TUF client library.  The run produces an event trace, the final process exit
code, and the observable states the claims speak about. -/

/-- Embedding of DownloadFile, given the outcome of the single http.Get call:
none models a transport error; otherwise the final status code and the
received body are given.  A non-OK status fails; on success the body bytes
are copied to the destination file, which was just created empty, so the file
then holds exactly the body. -/
def downloadFile (resp : Option (Nat × List Nat)) : Except String (List Nat) :=
  match resp with
  | none => .error "http get error"
  | some (code, body) =>
    if code ≠ 200 then .error "failed to download file" else .ok body

/-- Resolution of the latest metadata name for a suffix, given the outcome of
the http.Get of the mirror base URL performed by GetLatestMetadataName. -/
def resolveLatest (listing : Option (Nat × List Char)) (suffix : List Char) :
    Except String (List Char) :=
  match listing with
  | none => .error "http get error"
  | some (code, body) =>
    if code ≠ 200 then .error "failed to fetch mirror directory"
    else getLatestMetadataName body suffix

/-- The name main actually uses after discarding the resolution error: the
returned name on success and the empty string on failure, exactly the pair
returned by GetLatestMetadataName. -/
def resolvedOrEmpty (listing : Option (Nat × List Char)) (suffix : List Char) :
    List Char :=
  match resolveLatest listing suffix with
  | .error _ => []
  | .ok n => n

/-- Modelled from the spec: the process-wide trust-store state kept by the
external sigstore TUF client library (not part of this repository) under the
well-known dot-sigstore location in the home directory.  Per the spec it is
populated by a successful initialize with verified metadata, plus a directory
of verified target files; the pipeline later moves only the targets
subdirectory out, and the rest of the populated location stays where it is. -/
structure TufHome where
  targets : Option FSTree
  metadataPresent : Bool

/-- Stages of the pipeline recorded in the event trace. -/
inductive Event where
  | madeTempDir
  | resolvedRoot (name : List Char)
  | fetched (name : List Char)
  | cleanedTufDir
  | initializedTuf
  | gotRootStatus
  | movedTargets
  | createdArchive
  | compressed
  | emitted
deriving DecidableEq

/-- Outcomes of all external effects for one run. -/
structure Env where
  mkTempDirOk : Bool
  listing : Option (Nat × List Char)
  createOk : List Char → Bool
  download : List Char → Option (Nat × List Nat)
  initialSigstore : Option TufHome
  removeTufOk : Bool
  tufInit : Option (Option FSTree)
  rootStatusOk : Bool
  createArchiveOk : Bool
  compressOk : Bool

/-- Observable result of one run. -/
structure RunResult where
  events : List Event
  exitCode : Nat
  sigstore : Option TufHome
  sigstoreAtInit : Option (Option TufHome)
  repoAfterMove : Option (List (List Char × List Nat) × FSTree)
  archive : Option (List TarEntry)

/-- One iteration of the metadata download loop in main: create the file at
the temporary directory joined with the name, then download into it.  When
the name is empty - the value left by a failed resolution - the joined path
is the temporary directory itself, and creating a file at the path of an
existing directory fails, so the iteration is fatal. -/
def fetchStep (env : Env) (name : List Char)
    (files : List (List Char × List Nat)) :
    Option (List (List Char × List Nat)) :=
  if name.isEmpty then none
  else if !env.createOk name then none
  else
    match downloadFile (env.download name) with
    | .error _ => none
    | .ok body => some (files ++ [(name, body)])

/-- Embedding of os.Rename as used for the targets directory: fails when the
source path does not exist or the destination path already exists, otherwise
the subtree is relocated whole. -/
def osRenameDir (source : Option FSTree) (destinationExists : Bool) :
    Option FSTree :=
  match source with
  | none => none
  | some t => if destinationExists then none else some t

/-- Embedding of main: the stages in program order, aborting with exit code 1
at the first failing stage, as log.Fatalf does.  The working repository is
the list of created metadata files plus, after the move, the targets
subtree. -/
def runMain (env : Env) : RunResult :=
  if !env.mkTempDirOk then
    ⟨[], 1, env.initialSigstore, none, none, none⟩
  else
    let ev0 := [Event.madeTempDir]
    let rootName := resolvedOrEmpty env.listing "root.json".toList
    if rootName.isEmpty then
      ⟨ev0, 1, env.initialSigstore, none, none, none⟩
    else
      let ev1 := ev0 ++ [Event.resolvedRoot rootName]
      match fetchStep env rootName [] with
      | none => ⟨ev1, 1, env.initialSigstore, none, none, none⟩
      | some files1 =>
        let ev2 := ev1 ++ [Event.fetched rootName]
        let snapName := resolvedOrEmpty env.listing "snapshot.json".toList
        match fetchStep env snapName files1 with
        | none => ⟨ev2, 1, env.initialSigstore, none, none, none⟩
        | some files2 =>
          let ev3 := ev2 ++ [Event.fetched snapName]
          let tgtName := resolvedOrEmpty env.listing "targets.json".toList
          match fetchStep env tgtName files2 with
          | none => ⟨ev3, 1, env.initialSigstore, none, none, none⟩
          | some files3 =>
            let ev4 := ev3 ++ [Event.fetched tgtName]
            match fetchStep env "timestamp.json".toList files3 with
            | none => ⟨ev4, 1, env.initialSigstore, none, none, none⟩
            | some files4 =>
              let ev5 := ev4 ++ [Event.fetched "timestamp.json".toList]
              if !env.removeTufOk then
                ⟨ev5, 1, env.initialSigstore, none, none, none⟩
              else
                let ev6 := ev5 ++ [Event.cleanedTufDir]
                match env.tufInit with
                | none => ⟨ev6, 1, none, some none, none, none⟩
                | some tgts =>
                  let ev7 := ev6 ++ [Event.initializedTuf]
                  if !env.rootStatusOk then
                    ⟨ev7, 1, some ⟨tgts, true⟩, some none, none, none⟩
                  else
                    let ev8 := ev7 ++ [Event.gotRootStatus]
                    match osRenameDir tgts
                        (decide ("targets".toList ∈ files4.map Prod.fst)) with
                    | none => ⟨ev8, 1, some ⟨tgts, true⟩, some none, none, none⟩
                    | some t =>
                      let ev9 := ev8 ++ [Event.movedTargets]
                      if !env.createArchiveOk then
                        ⟨ev9, 1, some ⟨none, true⟩, some none, some (files4, t), none⟩
                      else
                        let ev10 := ev9 ++ [Event.createdArchive]
                        if !env.compressOk then
                          ⟨ev10, 1, some ⟨none, true⟩, some none, some (files4, t), none⟩
                        else
                          let ar := compressDirectory (FSTree.dir (FSEntries.ofList
                            (files4.map (fun p => (p.1, FSTree.file p.2))
                              ++ [("targets".toList, t)])))
                          let ev11 := ev10 ++ [Event.compressed, Event.emitted]
                          ⟨ev11, 0, some ⟨none, true⟩, some none, some (files4, t),
                            some ar⟩

/-! Specification-side notions used to state the claims. -/

/-- A piece of text matching the version pattern of the Mirror Directory
Parser: one or more digits, a literal dot, then the role suffix. -/
def isVersionText (suffix m : List Char) : Prop :=
  ∃ ds, ds ≠ [] ∧ (∀ c ∈ ds, c.isDigit = true) ∧ m = ds ++ '.' :: suffix

/-- The pattern matches text m as a contiguous substring of the line,
starting at position i. -/
def matchAt (suffix line : List Char) (i : Nat) (m : List Char) : Prop :=
  isVersionText suffix m ∧ ∃ pre post, pre.length = i ∧ line = pre ++ (m ++ post)

/-- Numeric value of a digit string, most significant digit first. -/
def natOfDigits : List Char → Nat
  | [] => 0
  | c :: cs => (c.toNat - 48) * 10 ^ cs.length + natOfDigits cs

/-- Version number of a candidate filename: its leading digit run read as a
decimal number. -/
def versionOf (name : List Char) : Nat :=
  natOfDigits (name.takeWhile Char.isDigit)

/-- Occurrence of a pattern as a contiguous substring. -/
def occursIn (pat s : List Char) : Prop := ∃ pre post, s = pre ++ (pat ++ post)

/-- Resource-name derivation as the specification words it: strip the fixed
URL scheme prefix from the mirror address, then append a dash and the Unix
timestamp in seconds. -/
def specResourceName (mirror : List Char) (now : Nat) : List Char :=
  (if httpsScheme.isPrefixOf mirror then mirror.drop httpsScheme.length else mirror)
    ++ '-' :: natDigits now

/-- A concrete environment in which every external effect succeeds. -/
def happyEnv : Env where
  mkTempDirOk := true
  listing := some (200, "1.root.json\n1.snapshot.json\n1.targets.json".toList)
  createOk := fun _ => true
  download := fun _ => some (200, [123])
  initialSigstore := none
  removeTufOk := true
  tufInit := some (some (.dir .nil))
  rootStatusOk := true
  createArchiveOk := true
  compressOk := true

/-- The same environment except that every file download is answered with
HTTP status 404. -/
def env404 : Env := { happyEnv with download := fun _ => some (404, []) }

/-- The same environment except that fetching the mirror directory listing
fails at the transport level. -/
def envNoListing : Env := { happyEnv with listing := none }

example : splitLines "ab\ncd".toList = ["ab".toList, "cd".toList] := by decide

example : (runMain happyEnv).exitCode = 0 := rfl

example : (runMain happyEnv).sigstore.isSome = true := rfl

example : (runMain env404).exitCode = 1 := rfl

/-! Properties of the Go string order. -/

theorem goLe_refl (a : List Char) : goLe a a = true := by
  induction a with
  | nil => rfl
  | cons c cs ih => simp [goLe, ih]

theorem goLe_total (a b : List Char) : goLe a b = true ∨ goLe b a = true := by
  induction a generalizing b with
  | nil => left; rfl
  | cons c cs ih =>
    cases b with
    | nil => right; rfl
    | cons d ds =>
      rcases Nat.lt_trichotomy c.toNat d.toNat with h | h | h
      · left; simp [goLe, h]
      · simpa [goLe, h] using ih ds
      · right; simp [goLe, h]

theorem goLe_trans {a b c : List Char} (h1 : goLe a b = true)
    (h2 : goLe b c = true) : goLe a c = true := by
  induction a generalizing b c with
  | nil => rfl
  | cons x xs ih =>
    cases b with
    | nil => simp [goLe] at h1
    | cons y ys =>
      cases c with
      | nil => simp [goLe] at h2
      | cons z zs =>
        simp only [goLe] at h1 h2 ⊢
        rcases Nat.lt_trichotomy x.toNat y.toNat with hxy | hxy | hxy <;>
          rcases Nat.lt_trichotomy y.toNat z.toNat with hyz | hyz | hyz <;>
          simp_all <;> try omega
        · exact ih h1 h2

/-- The last element of a goLeR-sorted list bounds every element. -/
theorem sorted_getLastD_max {l : List (List Char)} (hs : List.Sorted goLeR l) :
    ∀ x ∈ l, ∀ d, goLe x (l.getLastD d) = true := by
  induction l with
  | nil => intro x hx; cases hx
  | cons a t ih =>
    intro x hx d
    rw [List.getLastD_cons]
    rcases List.mem_cons.mp hx with rfl | hx2
    · cases t with
      | nil => simpa using goLe_refl x
      | cons b t2 =>
        have hxb : goLeR x b := (List.sorted_cons.mp hs).1 b (by simp)
        have hb := ih (List.sorted_cons.mp hs).2 b (by simp) x
        exact goLe_trans hxb hb
    · exact ih (List.sorted_cons.mp hs).2 x hx2 a

/-! Digit-run splitting facts used for the parser. -/

theorem takeWhile_digits_append {ds : List Char} {x : Char} {r : List Char}
    (hds : ∀ c ∈ ds, c.isDigit = true) (hx : x.isDigit = false) :
    (ds ++ x :: r).takeWhile Char.isDigit = ds ∧
      (ds ++ x :: r).dropWhile Char.isDigit = x :: r := by
  induction ds with
  | nil => simp [List.takeWhile_cons, List.dropWhile_cons, hx]
  | cons d ds2 ih =>
    have hd : d.isDigit = true := hds d (by simp)
    have ih2 := ih (fun c hc => hds c (by simp [hc]))
    simp [List.takeWhile_cons, List.dropWhile_cons, hd, ih2.1, ih2.2]

/-! Shifting and head facts for pattern occurrences. -/

theorem matchAt_succ {suffix rest : List Char} {c : Char} {i : Nat}
    {m : List Char} :
    matchAt suffix (c :: rest) (i + 1) m ↔ matchAt suffix rest i m := by
  constructor
  · rintro ⟨hv, pre, post, hlen, heq⟩
    cases pre with
    | nil => simp at hlen
    | cons c2 pre2 =>
      rw [List.cons_append] at heq
      injection heq with h1 h2
      exact ⟨hv, pre2, post, by simpa using hlen, h2⟩
  · rintro ⟨hv, pre, post, hlen, heq⟩
    exact ⟨hv, c :: pre, post, by simp [hlen], by simp [heq]⟩

theorem not_matchAt_zero_of_head {suffix rest : List Char} {c : Char}
    (hc : c.isDigit = false) {m : List Char} :
    ¬ matchAt suffix (c :: rest) 0 m := by
  rintro ⟨⟨ds, hne, hdig, rfl⟩, pre, post, hlen, heq⟩
  have hpre : pre = [] := List.eq_nil_of_length_eq_zero hlen
  subst hpre
  cases ds with
  | nil => exact hne rfl
  | cons d ds2 =>
    rw [List.nil_append] at heq
    have : c = d := by
      have := congrArg (fun l => l.headI) heq
      simpa using this
    rw [this, hdig d (by simp)] at hc
    cases hc

theorem not_matchAt_zero_of_no_dot {suffix rest : List Char} {c : Char}
    (hc : c.isDigit = true)
    (hp : ('.' :: suffix).isPrefixOf ((c :: rest).dropWhile Char.isDigit) = false)
    {m : List Char} :
    ¬ matchAt suffix (c :: rest) 0 m := by
  rintro ⟨⟨ds, hne, hdig, rfl⟩, pre, post, hlen, heq⟩
  have hpre : pre = [] := List.eq_nil_of_length_eq_zero hlen
  subst hpre
  rw [List.nil_append, List.append_assoc, List.cons_append] at heq
  have hsplit := takeWhile_digits_append (r := suffix ++ post) hdig
    (by decide : ('.').isDigit = false)
  rw [← heq] at hsplit
  rw [hsplit.2] at hp
  have : ('.' :: suffix).isPrefixOf ('.' :: (suffix ++ post)) = true := by
    have hpfx : ('.' :: suffix) <+: ('.' :: (suffix ++ post)) :=
      ⟨post, by simp⟩
    exact List.isPrefixOf_iff_prefix.mpr hpfx
  rw [this] at hp
  cases hp

example :
    compressDirectory (.dir (.cons "file2.txt".toList (.file [50])
      (.cons "file1.txt".toList (.file [49]) .nil))) =
    [⟨"file1.txt".toList, false, [49]⟩, ⟨"file2.txt".toList, false, [50]⟩] := by decide

example : compressDirectory (.dir .nil) = [] := by decide

example :
    compressDirectory (.dir (.cons "d".toList
      (.dir (.cons "x".toList (.file [7]) .nil)) .nil)) =
    [⟨"d".toList, true, []⟩, ⟨"d/x".toList, false, [7]⟩] := by decide

example : encodeBase64 [104, 101, 108, 108, 111, 32, 119, 111, 114, 108, 100] =
    "aGVsbG8gd29ybGQ=".toList := by decide

example : decodeBase64 "aGVsbG8gd29ybGQ=".toList =
    some [104, 101, 108, 108, 111, 32, 119, 111, 114, 108, 100] := by decide

example : resourceName "https://tuf-repo-cdn.sigstore.dev".toList 1700000000 =
    "tuf-repo-cdn.sigstore.dev-1700000000".toList := by decide

example : resourceName "hthttps://tps://".toList 7 = "https://-7".toList := by decide

example : findVersionMatch "root.json".toList "x 12.root.json y".toList =
    some "12.root.json".toList := by decide

example : findVersionMatch "root.json".toList "1.root.json 2.root.json".toList =
    some "1.root.json".toList := by decide

example : getLatestMetadataName "1.root.json\n2.root.json".toList "root.json".toList =
    .ok "2.root.json".toList := rfl

example : getLatestMetadataName "hello".toList "root.json".toList =
    .error "no metadata files matching pattern found in mirror directory" := rfl

example : getLatestMetadataName "10.root.json\n9.root.json".toList "root.json".toList =
    .ok "9.root.json".toList := rfl

end TrustRootAssembler

namespace TrustRootAssembler

/-- Characterisation of the per-line regexp search: a returned match is a
pattern occurrence at the leftmost matching position, and when nothing is
returned the line contains no pattern occurrence at all. -/
theorem findVersionMatch_correct (suffix : List Char) (line : List Char) :
    (∀ m, findVersionMatch suffix line = some m →
      ∃ i, matchAt suffix line i m ∧ ∀ j m', matchAt suffix line j m' → i ≤ j) ∧
    (findVersionMatch suffix line = none → ∀ i m, ¬ matchAt suffix line i m) := by
  induction line with
  | nil =>
    refine ⟨fun m h => by simp [findVersionMatch] at h, fun _ i m => ?_⟩
    rintro ⟨⟨ds, hne, _, rfl⟩, pre, post, _, heq⟩
    cases ds with
    | nil => exact hne rfl
    | cons d ds2 =>
      have := congrArg List.length heq
      simp at this
      omega
  | cons c rest ih =>
    by_cases hc : c.isDigit
    · by_cases hp :
        ('.' :: suffix).isPrefixOf ((c :: rest).dropWhile Char.isDigit) = true
      · constructor
        · intro m h
          rw [findVersionMatch, if_pos hc, if_pos hp] at h
          injection h with h
          obtain ⟨post2, hpost⟩ := List.isPrefixOf_iff_prefix.mp hp
          refine ⟨0, ⟨⟨(c :: rest).takeWhile Char.isDigit, ?_, ?_, h.symm⟩,
            [], post2, rfl, ?_⟩, fun j m' _ => Nat.zero_le j⟩
          · simp [List.takeWhile_cons, hc]
          · intro x hx
            simpa using List.mem_takeWhile_imp hx
          · rw [List.nil_append, ← h, List.append_assoc, hpost,
              List.takeWhile_append_dropWhile]
        · intro h
          rw [findVersionMatch, if_pos hc, if_pos hp] at h
          cases h
      · have hp2 : ('.' :: suffix).isPrefixOf
            ((c :: rest).dropWhile Char.isDigit) = false :=
          Bool.eq_false_iff.mpr hp
        have heq : findVersionMatch suffix (c :: rest) = findVersionMatch suffix rest := by
          rw [findVersionMatch, if_pos hc, if_neg hp]
        constructor
        · intro m h
          rw [heq] at h
          obtain ⟨i, hm, hmin⟩ := ih.1 m h
          refine ⟨i + 1, matchAt_succ.mpr hm, ?_⟩
          intro j m' hj
          cases j with
          | zero => exact absurd hj (not_matchAt_zero_of_no_dot hc hp2)
          | succ j2 => exact Nat.succ_le_succ (hmin j2 m' (matchAt_succ.mp hj))
        · intro h i m
          rw [heq] at h
          cases i with
          | zero => exact not_matchAt_zero_of_no_dot hc hp2
          | succ i2 => exact fun hj => ih.2 h i2 m (matchAt_succ.mp hj)
    · have hc2 : c.isDigit = false := by simpa using hc
      have heq : findVersionMatch suffix (c :: rest) = findVersionMatch suffix rest := by
        rw [findVersionMatch, if_neg (by simp [hc2])]
      constructor
      · intro m h
        rw [heq] at h
        obtain ⟨i, hm, hmin⟩ := ih.1 m h
        refine ⟨i + 1, matchAt_succ.mpr hm, ?_⟩
        intro j m' hj
        cases j with
        | zero => exact absurd hj (not_matchAt_zero_of_head hc2)
        | succ j2 => exact Nat.succ_le_succ (hmin j2 m' (matchAt_succ.mp hj))
      · intro h i m
        rw [heq] at h
        cases i with
        | zero => exact not_matchAt_zero_of_head hc2
        | succ i2 => exact fun hj => ih.2 h i2 m (matchAt_succ.mp hj)

end TrustRootAssembler

namespace TrustRootAssembler

/-- Code-point bounds of a decimal digit character. -/
theorem isDigit_toNat {c : Char} (h : c.isDigit = true) :
    48 ≤ c.toNat ∧ c.toNat ≤ 57 := by
  simpa [Char.isDigit] using h

/-- The default-valued last element of a non-empty list is an element. -/
theorem getLastD_mem {l : List (List Char)} (h : l ≠ []) :
    ∀ d, l.getLastD d ∈ l := by
  induction l with
  | nil => cases h rfl
  | cons a t ih =>
    intro d
    rw [List.getLastD_cons]
    cases t with
    | nil => simp
    | cons b t2 => exact List.mem_cons_of_mem a (ih (by simp) a)

/-- Any value returned by the per-line search is digits, a dot, and the
suffix. -/
theorem findVersionMatch_shape {suffix line m : List Char}
    (h : findVersionMatch suffix line = some m) : isVersionText suffix m :=
  ((findVersionMatch_correct suffix line).1 m h).choose_spec.1.1

/-- Any candidate collected from the listing body is digits, a dot, and the
suffix. -/
theorem collectCandidates_shape {suffix body m : List Char}
    (h : m ∈ collectCandidates suffix body) : isVersionText suffix m := by
  obtain ⟨line, -, hf⟩ := List.mem_filterMap.mp h
  exact findVersionMatch_shape hf

/-- Version texts are never empty. -/
theorem isVersionText_ne_nil {suffix m : List Char}
    (h : isVersionText suffix m) : m ≠ [] := by
  obtain ⟨ds, hne, -, rfl⟩ := h
  cases ds with
  | nil => exact absurd rfl hne
  | cons d ds2 => simp

/-- On a non-empty candidate list the resolver succeeds and returns a
candidate that is a goLe upper bound of all candidates. -/
theorem getLatest_mem_max {suffix body : List Char}
    (h : collectCandidates suffix body ≠ []) :
    ∃ m, getLatestMetadataName body suffix = .ok m ∧
      m ∈ collectCandidates suffix body ∧
      ∀ x ∈ collectCandidates suffix body, goLe x m = true := by
  haveI : IsTotal (List Char) goLeR := ⟨goLe_total⟩
  haveI : IsTrans (List Char) goLeR := ⟨fun _ _ _ h1 h2 => goLe_trans h1 h2⟩
  have hperm := List.perm_insertionSort goLeR (collectCandidates suffix body)
  have hsorted := List.sorted_insertionSort goLeR (collectCandidates suffix body)
  have hne : List.insertionSort goLeR (collectCandidates suffix body) ≠ [] := by
    intro hnil
    exact h (List.eq_nil_of_length_eq_zero
      (by rw [← hperm.length_eq, hnil]; rfl))
  refine ⟨(List.insertionSort goLeR (collectCandidates suffix body)).getLastD [],
    ?_, ?_, ?_⟩
  · unfold getLatestMetadataName
    rw [if_neg (by simpa [List.isEmpty_iff] using h)]
  · exact hperm.mem_iff.mp (getLastD_mem hne [])
  · intro x hx
    exact sorted_getLastD_max hsorted x (hperm.mem_iff.mpr hx) []

end TrustRootAssembler

namespace TrustRootAssembler

/-- A digit string of length n denotes a value below 10 to the n. -/
theorem natOfDigits_lt {ds : List Char} (h : ∀ c ∈ ds, c.isDigit = true) :
    natOfDigits ds < 10 ^ ds.length := by
  induction ds with
  | nil => simp [natOfDigits]
  | cons c cs ih =>
    have hc := isDigit_toNat (h c (by simp))
    have ih2 := ih (fun x hx => h x (by simp [hx]))
    simp only [natOfDigits, List.length_cons, pow_succ]
    calc (c.toNat - 48) * 10 ^ cs.length + natOfDigits cs
        < (c.toNat - 48) * 10 ^ cs.length + 10 ^ cs.length := by omega
      _ = (c.toNat - 48 + 1) * 10 ^ cs.length := by ring
      _ ≤ 10 * 10 ^ cs.length := Nat.mul_le_mul_right _ (by omega)
      _ = 10 ^ cs.length * 10 := by ring

/-- On equal-length digit strings, Go string order is numeric order. -/
theorem goLe_digits_iff {a b : List Char} (hlen : a.length = b.length)
    (ha : ∀ c ∈ a, c.isDigit = true) (hb : ∀ c ∈ b, c.isDigit = true) :
    (goLe a b = true ↔ natOfDigits a ≤ natOfDigits b) := by
  induction a generalizing b with
  | nil =>
    cases b with
    | nil => simp [goLe, natOfDigits]
    | cons d ds => simp at hlen
  | cons c cs ih =>
    cases b with
    | nil => simp at hlen
    | cons d ds =>
      have hlen2 : cs.length = ds.length := by simpa using hlen
      have hc := isDigit_toNat (ha c (by simp))
      have hd := isDigit_toNat (hb d (by simp))
      have hcs : natOfDigits cs < 10 ^ ds.length := by
        rw [← hlen2]; exact natOfDigits_lt (fun x hx => ha x (by simp [hx]))
      have hds : natOfDigits ds < 10 ^ ds.length :=
        natOfDigits_lt (fun x hx => hb x (by simp [hx]))
      have ih2 := ih hlen2 (fun x hx => ha x (by simp [hx]))
        (fun x hx => hb x (by simp [hx]))
      rcases Nat.lt_trichotomy c.toNat d.toNat with h | h | h
      · have hnum : natOfDigits (c :: cs) ≤ natOfDigits (d :: ds) := by
          simp only [natOfDigits, hlen2]
          have h1 : c.toNat - 48 + 1 ≤ d.toNat - 48 := by omega
          calc (c.toNat - 48) * 10 ^ ds.length + natOfDigits cs
              ≤ (c.toNat - 48) * 10 ^ ds.length + 10 ^ ds.length := by omega
            _ = (c.toNat - 48 + 1) * 10 ^ ds.length := by ring
            _ ≤ (d.toNat - 48) * 10 ^ ds.length := Nat.mul_le_mul_right _ h1
            _ ≤ (d.toNat - 48) * 10 ^ ds.length + natOfDigits ds :=
                Nat.le_add_right _ _
        simp [goLe, h, hnum]
      · have hiff : natOfDigits (c :: cs) ≤ natOfDigits (d :: ds) ↔
            natOfDigits cs ≤ natOfDigits ds := by
          simp only [natOfDigits, hlen2, h]
          omega
        simp only [goLe, h, Nat.lt_irrefl, if_false]
        rw [hiff]
        exact ih2
      · have hnum : ¬ natOfDigits (c :: cs) ≤ natOfDigits (d :: ds) := by
          simp only [natOfDigits, hlen2]
          have h1 : d.toNat - 48 + 1 ≤ c.toNat - 48 := by omega
          have : (d.toNat - 48) * 10 ^ ds.length + natOfDigits ds
              < (c.toNat - 48) * 10 ^ ds.length + natOfDigits cs := by
            calc (d.toNat - 48) * 10 ^ ds.length + natOfDigits ds
                < (d.toNat - 48) * 10 ^ ds.length + 10 ^ ds.length := by omega
              _ = (d.toNat - 48 + 1) * 10 ^ ds.length := by ring
              _ ≤ (c.toNat - 48) * 10 ^ ds.length := Nat.mul_le_mul_right _ h1
              _ ≤ (c.toNat - 48) * 10 ^ ds.length + natOfDigits cs :=
                  Nat.le_add_right _ _
          omega
        simp [goLe, h, Nat.lt_asymm h, hnum]

/-- Go order restricted along a common appended suffix of equal-length
strings. -/
theorem goLe_append_right {a b s : List Char} (hlen : a.length = b.length)
    (h : goLe (a ++ s) (b ++ s) = true) : goLe a b = true := by
  induction a generalizing b with
  | nil =>
    cases b with
    | nil => rfl
    | cons d ds => simp at hlen
  | cons c cs ih =>
    cases b with
    | nil => simp at hlen
    | cons d ds =>
      have hlen2 : cs.length = ds.length := by simpa using hlen
      simp only [List.cons_append, goLe] at h ⊢
      rcases Nat.lt_trichotomy c.toNat d.toNat with hcd | hcd | hcd
      · simp [hcd]
      · simp only [hcd, Nat.lt_irrefl, if_false] at h ⊢
        exact ih hlen2 h
      · simp [hcd, Nat.lt_asymm hcd] at h

end TrustRootAssembler

namespace TrustRootAssembler

/-- C1: for every non-empty CandidateSet the Latest-Version Resolver returns
the byte-wise lexicographically greatest candidate filename; when all
candidate version numbers have the same digit-length the returned name is the
numerically-latest filename; and a listing with lines containing 1.root.json
and 2.root.json resolves role root.json to 2.root.json. -/
theorem C1_resolver_returns_latest :
    (∀ suffix body, collectCandidates suffix body ≠ [] →
      ∃ m, getLatestMetadataName body suffix = .ok m ∧
        m ∈ collectCandidates suffix body ∧
        (∀ x ∈ collectCandidates suffix body, goLe x m = true) ∧
        ((∀ x ∈ collectCandidates suffix body,
            (x.takeWhile Char.isDigit).length = (m.takeWhile Char.isDigit).length) →
          ∀ x ∈ collectCandidates suffix body, versionOf x ≤ versionOf m)) ∧
    getLatestMetadataName
      "<a>1.root.json</a>\n<a>2.root.json</a>".toList "root.json".toList =
      .ok "2.root.json".toList := by
  constructor
  · intro suffix body hne
    obtain ⟨m, hok, hmem, hmax⟩ := getLatest_mem_max hne
    refine ⟨m, hok, hmem, hmax, ?_⟩
    intro hunif x hx
    obtain ⟨dsx, hnex, hdigx, hxeq⟩ := collectCandidates_shape hx
    obtain ⟨dsm, hnem, hdigm, hmeq⟩ := collectCandidates_shape hmem
    have htx : x.takeWhile Char.isDigit = dsx := by
      rw [hxeq]; exact (takeWhile_digits_append hdigx (by decide)).1
    have htm : m.takeWhile Char.isDigit = dsm := by
      rw [hmeq]; exact (takeWhile_digits_append hdigm (by decide)).1
    have hlen : dsx.length = dsm.length := by
      have := hunif x hx
      rwa [htx, htm] at this
    have hxm : goLe dsx dsm = true := by
      apply goLe_append_right hlen
      have := hmax x hx
      rwa [hxeq, hmeq] at this
    unfold versionOf
    rw [htx, htm]
    exact (goLe_digits_iff hlen hdigx hdigm).mp hxm
  · rfl

/-- C1 witness: the general part applied to a concrete two-candidate
listing. -/
theorem C1_resolver_returns_latest_witness :
    ∃ m, getLatestMetadataName "1.root.json\n2.root.json".toList
        "root.json".toList = .ok m ∧
      m ∈ collectCandidates "root.json".toList "1.root.json\n2.root.json".toList ∧
      (∀ x ∈ collectCandidates "root.json".toList
        "1.root.json\n2.root.json".toList, goLe x m = true) ∧
      ((∀ x ∈ collectCandidates "root.json".toList
          "1.root.json\n2.root.json".toList,
          (x.takeWhile Char.isDigit).length = (m.takeWhile Char.isDigit).length) →
        ∀ x ∈ collectCandidates "root.json".toList
          "1.root.json\n2.root.json".toList, versionOf x ≤ versionOf m) :=
  C1_resolver_returns_latest.1 "root.json".toList
    "1.root.json\n2.root.json".toList (by decide)

/-- C4: resolution over an empty CandidateSet always fails with an error and
never returns any name; conversely a returned name comes from a non-empty
CandidateSet. -/
theorem C4_empty_resolution_fails :
    (∀ suffix body, collectCandidates suffix body = [] →
      getLatestMetadataName body suffix =
        .error "no metadata files matching pattern found in mirror directory") ∧
    (∀ suffix body m, getLatestMetadataName body suffix = .ok m →
      collectCandidates suffix body ≠ []) := by
  constructor
  · intro suffix body h
    unfold getLatestMetadataName
    rw [if_pos (by simpa [List.isEmpty_iff] using h)]
  · intro suffix body m hok h
    unfold getLatestMetadataName at hok
    rw [if_pos (by simpa [List.isEmpty_iff] using h)] at hok
    cases hok

/-- C4 witness: a body with no matching line resolves to the error. -/
theorem C4_empty_resolution_fails_witness :
    getLatestMetadataName "hello".toList "root.json".toList =
      .error "no metadata files matching pattern found in mirror directory" :=
  C4_empty_resolution_fails.1 "root.json".toList "hello".toList (by decide)

/-- C3 counterexample: on a single listing line containing the two pattern
occurrences 1.root.json and 2.root.json, the second occurrence is a
contiguous substring matching the pattern, yet the collected CandidateSet is
exactly the first occurrence alone - the claim that every match occurring
anywhere in the body is collected fails here. -/
theorem C3_counterexample :
    matchAt "root.json".toList "1.root.json 2.root.json".toList 12
        "2.root.json".toList ∧
    collectCandidates "root.json".toList "1.root.json 2.root.json".toList =
      ["1.root.json".toList] ∧
    "2.root.json".toList ∉
      collectCandidates "root.json".toList "1.root.json 2.root.json".toList := by
  refine ⟨⟨⟨['2'], by decide, by decide, by decide⟩,
    "1.root.json ".toList, [], by decide, by decide⟩, by decide, by decide⟩

/-- C3 (amended): the Mirror Directory Parser scans the body line by line and
collects, for each line, only the leftmost contiguous substring matching
one-or-more digits, a literal dot, then the role suffix, when the line has
any; the CandidateSet is exactly these per-line first matches, and a line
yields nothing only when it contains no match at all. -/
theorem C3_parser_first_match_per_line :
    (∀ suffix body, collectCandidates suffix body =
      (splitLines body).filterMap (findVersionMatch suffix)) ∧
    (∀ suffix line m, findVersionMatch suffix line = some m →
      ∃ i, matchAt suffix line i m ∧ ∀ j m', matchAt suffix line j m' → i ≤ j) ∧
    (∀ suffix line, findVersionMatch suffix line = none →
      ∀ i m, ¬ matchAt suffix line i m) :=
  ⟨fun _ _ => rfl, fun s l => (findVersionMatch_correct s l).1,
    fun s l => (findVersionMatch_correct s l).2⟩

/-- C3 witness: the amended statement applied to a concrete line whose
leftmost match exists. -/
theorem C3_parser_first_match_per_line_witness :
    ∃ i, matchAt "root.json".toList "x1.root.json".toList i
        "1.root.json".toList ∧
      ∀ j m', matchAt "root.json".toList "x1.root.json".toList j m' → i ≤ j :=
  C3_parser_first_match_per_line.2.1 "root.json".toList "x1.root.json".toList
    "1.root.json".toList (by decide)

end TrustRootAssembler

namespace TrustRootAssembler

/-- Decoding inverts the alphabet on six-bit values. -/
theorem b64Index_b64Char : ∀ n, n < 64 → b64Index (b64Char n) = some n := by decide

/-- No alphabet character is the padding character. -/
theorem b64Char_ne_pad (n : Nat) : b64Char n ≠ '=' := by
  by_cases h : n < b64Alphabet.length
  · have hm : b64Char n ∈ b64Alphabet := by
      unfold b64Char
      rw [List.getD_eq_getElem b64Alphabet 'A' h]
      exact List.getElem_mem h
    intro he
    rw [he] at hm
    revert hm
    decide
  · unfold b64Char
    rw [List.getD_eq_default b64Alphabet 'A' (by omega)]
    decide

/-- Decoding the standard base64 encoding of a byte sequence gives back the
bytes. -/
theorem decode_encode :
    ∀ bs : List Nat, (∀ b ∈ bs, b < 256) →
      decodeBase64 (encodeBase64 bs) = some bs
  | [], _ => rfl
  | [b1], h => by
    have h1 : b1 < 256 := h b1 (by simp)
    have e1 := b64Index_b64Char (b1 / 4) (by omega)
    have e2 := b64Index_b64Char (b1 % 4 * 16) (by omega)
    simp only [encodeBase64, decodeBase64]
    rw [if_pos (by decide)]
    rw [e1, e2]
    have a1 : b1 / 4 * 4 + b1 % 4 * 16 / 16 = b1 := by omega
    show some [b1 / 4 * 4 + b1 % 4 * 16 / 16] = some [b1]
    rw [a1]
  | [b1, b2], h => by
    have h1 : b1 < 256 := h b1 (by simp)
    have h2 : b2 < 256 := h b2 (by simp)
    have e1 := b64Index_b64Char (b1 / 4) (by omega)
    have e2 := b64Index_b64Char (b1 % 4 * 16 + b2 / 16) (by omega)
    have e3 := b64Index_b64Char (b2 % 16 * 4) (by omega)
    simp only [encodeBase64, decodeBase64]
    rw [if_neg (by simp [b64Char_ne_pad]), if_pos (by decide)]
    rw [e1, e2, e3]
    have a1 : b1 / 4 * 4 + (b1 % 4 * 16 + b2 / 16) / 16 = b1 := by omega
    have a2 : (b1 % 4 * 16 + b2 / 16) % 16 * 16 + b2 % 16 * 4 / 4 = b2 := by omega
    show some [b1 / 4 * 4 + (b1 % 4 * 16 + b2 / 16) / 16,
      (b1 % 4 * 16 + b2 / 16) % 16 * 16 + b2 % 16 * 4 / 4] = some [b1, b2]
    rw [a1, a2]
  | b1 :: b2 :: b3 :: rest, h => by
    have h1 : b1 < 256 := h b1 (by simp)
    have h2 : b2 < 256 := h b2 (by simp)
    have h3 : b3 < 256 := h b3 (by simp)
    have ih := decode_encode rest (fun b hb => h b (by simp [hb]))
    have e1 := b64Index_b64Char (b1 / 4) (by omega)
    have e2 := b64Index_b64Char (b1 % 4 * 16 + b2 / 16) (by omega)
    have e3 := b64Index_b64Char (b2 % 16 * 4 + b3 / 64) (by omega)
    have e4 := b64Index_b64Char (b3 % 64) (by omega)
    simp only [encodeBase64, decodeBase64]
    rw [if_neg (by simp [b64Char_ne_pad]), if_neg (by simp [b64Char_ne_pad])]
    rw [e1, e2, e3, e4, ih]
    have a1 : b1 / 4 * 4 + (b1 % 4 * 16 + b2 / 16) / 16 = b1 := by omega
    have a2 : (b1 % 4 * 16 + b2 / 16) % 16 * 16 + (b2 % 16 * 4 + b3 / 64) / 4 = b2 := by
      omega
    have a3 : (b2 % 16 * 4 + b3 / 64) % 4 * 64 + b3 % 64 = b3 := by omega
    show some ((b1 / 4 * 4 + (b1 % 4 * 16 + b2 / 16) / 16) ::
      ((b1 % 4 * 16 + b2 / 16) % 16 * 16 + (b2 % 16 * 4 + b3 / 64) / 4) ::
      ((b2 % 16 * 4 + b3 / 64) % 4 * 64 + b3 % 64) :: rest) =
      some (b1 :: b2 :: b3 :: rest)
    rw [a1, a2, a3]

end TrustRootAssembler

namespace TrustRootAssembler

/-- C7: Encoder round trip - for every byte sequence the standard base64
encoding decodes back to the original bytes; empty input yields the empty
string; and the bytes of hello world encode to aGVsbG8gd29ybGQ=. -/
theorem C7_encoder_round_trip :
    (∀ bs : List Nat, (∀ b ∈ bs, b < 256) →
      decodeBase64 (encodeBase64 bs) = some bs) ∧
    encodeBase64 [] = [] ∧
    encodeBase64 [104, 101, 108, 108, 111, 32, 119, 111, 114, 108, 100] =
      "aGVsbG8gd29ybGQ=".toList :=
  ⟨decode_encode, rfl, by decide⟩

/-- C7 witness: the round trip at the input containing all 256 byte
values. -/
theorem C7_encoder_round_trip_witness :
    decodeBase64 (encodeBase64 (List.range 256)) = some (List.range 256) :=
  C7_encoder_round_trip.1 (List.range 256) (fun _ hb => List.mem_range.mp hb)

/-! Decimal rendering facts for the Manifest Emitter. -/

/-- Every character produced by digitChar is a decimal digit. -/
theorem digitChar_isDigit (n : Nat) : (digitChar n).isDigit = true := by
  unfold digitChar
  split <;> decide

/-- Value of a digit character for digits below ten. -/
theorem digitChar_toNat : ∀ n, n < 10 → (digitChar n).toNat - 48 = n := by decide

/-- Unfolding equation of natOfDigits on a leading digit. -/
theorem natOfDigits_cons (c : Char) (cs : List Char) :
    natOfDigits (c :: cs) = (c.toNat - 48) * 10 ^ cs.length + natOfDigits cs := rfl

/-- Appending one digit multiplies the value by ten and adds the digit. -/
theorem natOfDigits_append_digit (l : List Char) (c : Char) :
    natOfDigits (l ++ [c]) = 10 * natOfDigits l + (c.toNat - 48) := by
  induction l with
  | nil => simp [natOfDigits]
  | cons d ds ih =>
    rw [List.cons_append, natOfDigits_cons, natOfDigits_cons, ih,
      List.length_append, List.length_singleton, pow_succ]
    ring

/-- The fuelled renderer denotes its input once the fuel is large enough. -/
theorem natOfDigits_natDigitsAux :
    ∀ fuel n, n < fuel → natOfDigits (natDigitsAux fuel n) = n := by
  intro fuel
  induction fuel with
  | zero => intro n hn; omega
  | succ fuel ih =>
    intro n hn
    unfold natDigitsAux
    by_cases h : n < 10
    · rw [if_pos h]
      simp [natOfDigits, digitChar_toNat n h]
    · rw [if_neg h]
      rw [natOfDigits_append_digit, ih (n / 10) (by omega),
        digitChar_toNat (n % 10) (by omega)]
      omega

/-- The decimal rendering denotes its input. -/
theorem natOfDigits_natDigits (n : Nat) : natOfDigits (natDigits n) = n :=
  natOfDigits_natDigitsAux (n + 1) n (Nat.lt_succ_self n)

/-- Decimal renderings of different numbers differ. -/
theorem natDigits_inj {a b : Nat} (h : natDigits a = natDigits b) : a = b := by
  have := congrArg natOfDigits h
  rwa [natOfDigits_natDigits, natOfDigits_natDigits] at this

/-- Every character of a decimal rendering is a digit. -/
theorem natDigits_isDigit (n : Nat) : ∀ c ∈ natDigits n, c.isDigit = true := by
  unfold natDigits
  generalize n + 1 = fuel
  induction fuel generalizing n with
  | zero => simp [natDigitsAux]
  | succ fuel ih =>
    unfold natDigitsAux
    by_cases h : n < 10
    · rw [if_pos h]
      intro c hc
      rw [List.mem_singleton.mp hc]
      exact digitChar_isDigit n
    · rw [if_neg h]
      intro c hc
      rcases List.mem_append.mp hc with hc2 | hc2
      · exact ih (n / 10) c hc2
      · rw [List.mem_singleton.mp hc2]
        exact digitChar_isDigit (n % 10)

/-! Behaviour of the ReplaceAll scanner. -/

/-- While skip characters remain the scanner drops them one by one. -/
theorem replaceScan_skip (p : Char) (ps : List Char) :
    ∀ l rest, replaceScan p ps l.length (l ++ rest) = replaceScan p ps 0 rest := by
  intro l
  induction l with
  | nil => intro rest; rfl
  | cons c l2 ih =>
    intro rest
    simpa [replaceScan] using ih rest

/-- A pattern occurrence at the head is deleted whole. -/
theorem replaceScan_head (p : Char) (ps rest : List Char) :
    replaceScan p ps 0 ((p :: ps) ++ rest) = replaceScan p ps 0 rest := by
  have hp : (p :: ps).isPrefixOf ((p :: ps) ++ rest) = true :=
    List.isPrefixOf_iff_prefix.mpr ⟨rest, rfl⟩
  rw [List.cons_append, replaceScan, if_pos (by simpa using hp)]
  exact replaceScan_skip p ps ps rest

/-- A string with no pattern occurrence is left unchanged. -/
theorem replaceScan_no_occurrence (p : Char) (ps : List Char) :
    ∀ s, ¬ occursIn (p :: ps) s → replaceScan p ps 0 s = s := by
  intro s
  induction s with
  | nil => intro _; rfl
  | cons c rest ih =>
    intro hno
    have hpf : (p :: ps).isPrefixOf (c :: rest) = false := by
      by_contra hne
      have : (p :: ps) <+: (c :: rest) :=
        List.isPrefixOf_iff_prefix.mp (by simpa using hne)
      obtain ⟨t, ht⟩ := this
      exact hno ⟨[], t, by simp [ht.symm]⟩
    rw [replaceScan, if_neg (by simp [hpf])]
    rw [ih (fun hocc => hno (by
      obtain ⟨pre, post, hpp⟩ := hocc
      exact ⟨c :: pre, post, by simp [hpp]⟩))]

end TrustRootAssembler

namespace TrustRootAssembler

/-- The scheme string decomposed for the scanner. -/
theorem httpsScheme_cons : httpsScheme = 'h' :: "ttps://".toList := rfl

/-- For a mirror that is the scheme followed by text free of further scheme
occurrences, ReplaceAll of the scheme is exactly stripping the scheme. -/
theorem replaceAll_scheme {rest : List Char} (hno : ¬ occursIn httpsScheme rest) :
    replaceAllWithEmpty 'h' "ttps://".toList (httpsScheme ++ rest) = rest := by
  unfold replaceAllWithEmpty
  rw [httpsScheme_cons, replaceScan_head]
  exact replaceScan_no_occurrence 'h' "ttps://".toList rest
    (by rwa [← httpsScheme_cons])

/-- A name that continues with a dash and digits after scheme-free text does
not begin with the scheme. -/
theorem scheme_not_begin {rest : List Char} (hno : ¬ occursIn httpsScheme rest)
    (ds : List Char) : ¬ httpsScheme <+: (rest ++ '-' :: ds) := by
  intro h
  by_cases hlen : 8 ≤ rest.length
  · have htake := List.prefix_iff_eq_take.mp h
    rw [show httpsScheme.length = 8 from rfl,
      List.take_append_of_le_length hlen] at htake
    have hpf : httpsScheme <+: rest := htake ▸ List.take_prefix 8 rest
    obtain ⟨t, ht⟩ := hpf
    exact hno ⟨[], t, by simp [ht.symm]⟩
  · obtain ⟨t, ht⟩ := h
    have hl : (httpsScheme ++ t)[rest.length]? = httpsScheme[rest.length]? :=
      List.getElem?_append_left
        (by rw [show httpsScheme.length = 8 from rfl]; omega)
    have hr : (rest ++ '-' :: ds)[rest.length]? = some '-' := by
      rw [List.getElem?_append_right (Nat.le_refl _)]
      simp
    rw [ht, hr] at hl
    have hforall : ∀ i, i < 8 → httpsScheme[i]? ≠ some '-' := by decide
    exact hforall rest.length (by omega) hl.symm

/-- C8 (amended): the Manifest Emitter derives the resource name by deleting
every occurrence of the substring https:// from the mirror address and
appending a dash and the current Unix timestamp in seconds; in the normal
case - the mirror address is the scheme followed by text containing no
further scheme occurrence - this coincides with stripping the scheme prefix,
and the emitted name does not begin with the scheme; the name always ends in
an all-digit timestamp suffix, distinct across two runs whose Unix times
differ. -/
theorem C8_manifest_resource_name :
    (∀ mirror now b64root b64archive,
      trustRootManifest mirror now b64root b64archive =
        "apiVersion: policy.sigstore.dev/v1alpha1\nkind: TrustRoot\nmetadata:\n  name: ".toList
          ++ (replaceAllWithEmpty 'h' "ttps://".toList mirror
              ++ '-' :: natDigits now)
          ++ "\nspec:\n  repository:\n    root: |-\n      ".toList ++ b64root
          ++ "\n    mirrorFS: |-\n      ".toList ++ b64archive ++ "\n".toList) ∧
    (∀ rest now, ¬ occursIn httpsScheme rest →
      resourceName (httpsScheme ++ rest) now = rest ++ '-' :: natDigits now ∧
      ¬ httpsScheme <+: resourceName (httpsScheme ++ rest) now) ∧
    (∀ now, ∀ c ∈ natDigits now, c.isDigit = true) ∧
    (∀ mirror t1 t2, t1 < t2 →
      resourceName mirror t1 ≠ resourceName mirror t2) := by
  refine ⟨fun _ _ _ _ => rfl, ?_, fun now => natDigits_isDigit now, ?_⟩
  · intro rest now hno
    have hname : resourceName (httpsScheme ++ rest) now =
        rest ++ '-' :: natDigits now := by
      unfold resourceName
      rw [replaceAll_scheme hno]
    exact ⟨hname, by rw [hname]; exact scheme_not_begin hno (natDigits now)⟩
  · intro mirror t1 t2 hlt heq
    unfold resourceName at heq
    have h2 := List.append_cancel_left heq
    have h3 : natDigits t1 = natDigits t2 := by
      injection h2
    exact absurd (natDigits_inj h3) (by omega)

/-- C8 counterexample: the derivation is not a prefix strip - for the mirror
address ahttps://b the code deletes the inner occurrence while a prefix strip
keeps the address unchanged - and the emitted name is not always free of the
scheme prefix: for the mirror address hthttps://tps:// the single deletion
creates a name that begins with https://. -/
theorem C8_counterexample :
    resourceName "ahttps://b".toList 0 ≠ specResourceName "ahttps://b".toList 0 ∧
    httpsScheme.isPrefixOf (resourceName "hthttps://tps://".toList 0) = true :=
  ⟨by decide, by decide⟩

/-- C8 witness: the amended normal case and distinctness at concrete
values. -/
theorem C8_manifest_resource_name_witness :
    (resourceName "https://cdn".toList 5 = "cdn".toList ++ '-' :: natDigits 5 ∧
      ¬ httpsScheme <+: resourceName "https://cdn".toList 5) ∧
    resourceName "https://cdn".toList 5 ≠ resourceName "https://cdn".toList 6 :=
  ⟨C8_manifest_resource_name.2.1 "cdn".toList 5
      (by
        rintro ⟨pre, post, hpp⟩
        have hlen := congrArg List.length hpp
        simp [httpsScheme] at hlen
        omega),
    C8_manifest_resource_name.2.2.2 "https://cdn".toList 5 6 (by omega)⟩

end TrustRootAssembler

namespace TrustRootAssembler

/-! The archive entry list is a permutation of the unsorted tree listing. -/

/-- Round trip between entry packs and lists. -/
theorem toList_ofList (l : List (List Char × FSTree)) :
    (FSEntries.ofList l).toList = l := by
  induction l with
  | nil => rfl
  | cons e rest ih =>
    cases e
    simp [FSEntries.ofList, FSEntries.toList, ih]

/-- The walk over a directory level is a flat map over its entry list. -/
theorem walkEntriesAux_eq_flatMap : ∀ (path : List Char) (es : FSEntries),
    walkEntriesAux path es =
      es.toList.flatMap (fun e => walkTree (childPath path e.1) e.2)
  | _, .nil => rfl
  | path, .cons n t rest => by
    simp [walkEntriesAux, FSEntries.toList, walkEntriesAux_eq_flatMap path rest]

/-- Sorting one directory level permutes its entry list. -/
theorem sortPairs_perm (es : FSEntries) :
    List.Perm (sortPairs es).toList es.toList := by
  unfold sortPairs
  rw [toList_ofList]
  exact List.perm_insertionSort entryLe es.toList

mutual
/-- Walking the name-sorted tree permutes the walk of the tree itself. -/
theorem walkTree_sortTree_perm (path : List Char) (t : FSTree) :
    List.Perm (walkTree path (sortTree t)) (walkTree path t) := by
  cases t with
  | file c => exact List.Perm.refl _
  | dir es =>
    show List.Perm (⟨path, true, []⟩ :: walkEntriesAux path
      (sortPairs (sortEntriesRec es))) (⟨path, true, []⟩ :: walkEntriesAux path es)
    refine List.Perm.cons _ (List.Perm.trans ?_ (walkEntries_sortRec_perm path es))
    rw [walkEntriesAux_eq_flatMap, walkEntriesAux_eq_flatMap]
    exact List.Perm.flatMap_right _ (sortPairs_perm (sortEntriesRec es))
theorem walkEntries_sortRec_perm (path : List Char) (es : FSEntries) :
    List.Perm (walkEntriesAux path (sortEntriesRec es)) (walkEntriesAux path es) := by
  cases es with
  | nil => exact List.Perm.refl _
  | cons n t rest =>
    show List.Perm (walkTree (childPath path n) (sortTree t) ++
        walkEntriesAux path (sortEntriesRec rest))
      (walkTree (childPath path n) t ++ walkEntriesAux path rest)
    exact List.Perm.append (walkTree_sortTree_perm (childPath path n) t)
      (walkEntries_sortRec_perm path rest)
end

/-- The archive is a permutation of the unsorted tree listing. -/
theorem compress_perm_treeListing (t : FSTree) :
    List.Perm (compressDirectory t) (treeListing t) := by
  cases t with
  | file c => exact List.Perm.refl _
  | dir es =>
    show List.Perm (walkEntriesAux [] (sortPairs (sortEntriesRec es)))
      (walkEntriesAux [] es)
    refine List.Perm.trans ?_ (walkEntries_sortRec_perm [] es)
    rw [walkEntriesAux_eq_flatMap, walkEntriesAux_eq_flatMap]
    exact List.Perm.flatMap_right _ (sortPairs_perm (sortEntriesRec es))

end TrustRootAssembler

namespace TrustRootAssembler

/-- splitPath never returns the empty list of components. -/
theorem splitPath_ne_nil (l : List Char) : splitPath l ≠ [] := by
  cases l with
  | nil => simp [splitPath]
  | cons c rest =>
    unfold splitPath
    cases h : splitPath rest with
    | nil => simp
    | cons a as =>
      by_cases hc : c = '/'
      · simp [hc]
      · simp [hc]

/-- splitPath distributes over a slash. -/
theorem splitPath_append_slash (a b : List Char) :
    splitPath (a ++ '/' :: b) = splitPath a ++ splitPath b := by
  induction a with
  | nil =>
    cases h : splitPath b with
    | nil => exact absurd h (splitPath_ne_nil b)
    | cons x xs => simp [splitPath, h]
  | cons c a2 ih =>
    cases h : splitPath a2 with
    | nil => exact absurd h (splitPath_ne_nil a2)
    | cons x xs =>
      show splitPath (c :: (a2 ++ '/' :: b)) = splitPath (c :: a2) ++ splitPath b
      by_cases hc : c = '/'
      · simp [splitPath, ih, h, hc]
      · simp [splitPath, ih, h, hc]

/-- A slash-free path is a single component. -/
theorem splitPath_no_slash (n : List Char) (h : '/' ∉ n) : splitPath n = [n] := by
  induction n with
  | nil => rfl
  | cons c rest ih =>
    unfold splitPath
    rw [ih (fun hm => h (by simp [hm]))]
    have hc : c ≠ '/' := fun he => h (by simp [he])
    simp [hc]

/-- Components joined with slashes are non-empty when the components are. -/
theorem joinComponents_ne_nil : ∀ (p : List (List Char)) (n : List Char),
    n ≠ [] → joinComponents (n :: p) ≠ []
  | [], n, hn => by simpa [joinComponents] using hn
  | m :: rest, n, hn => by
    cases n with
    | nil => exact absurd rfl hn
    | cons c cs => simp [joinComponents]

/-- Adding one component at the end is the child-path construction of the
walk. -/
theorem joinComponents_append : ∀ (p : List (List Char)) (n : List Char),
    (∀ c ∈ p, c ≠ []) →
    joinComponents (p ++ [n]) = childPath (joinComponents p) n
  | [], n, _ => by simp [joinComponents, childPath]
  | [m], n, h => by
    have hm : m ≠ [] := h m (by simp)
    show joinComponents [m, n] = childPath m n
    cases m with
    | nil => exact absurd rfl hm
    | cons c cs => simp [joinComponents, childPath]
  | m :: m2 :: rest, n, h => by
    have ih := joinComponents_append (m2 :: rest) n (fun c hc => h c (by simp [hc]))
    show m ++ '/' :: joinComponents ((m2 :: rest) ++ [n]) =
      childPath (m ++ '/' :: joinComponents (m2 :: rest)) n
    rw [ih]
    unfold childPath
    rw [if_neg (by
      simpa using joinComponents_ne_nil rest m2 (h m2 (by simp))), if_neg (by simp)]
    simp

/-- splitPath inverts joinComponents on non-empty slash-free components. -/
theorem splitPath_joinComponents : ∀ p : List (List Char), p ≠ [] →
    (∀ c ∈ p, '/' ∉ c) → splitPath (joinComponents p) = p
  | [], h, _ => absurd rfl h
  | [n], _, h => by
    show splitPath n = [n]
    exact splitPath_no_slash n (h n (by simp))
  | n :: m :: rest, _, h => by
    show splitPath (n ++ '/' :: joinComponents (m :: rest)) = n :: m :: rest
    rw [splitPath_append_slash,
      splitPath_joinComponents (m :: rest) (by simp) (fun c hc => h c (by simp [hc])),
      splitPath_no_slash n (h n (by simp))]
    rfl

end TrustRootAssembler

namespace TrustRootAssembler

/-- Unfolding of tree validity at a directory. -/
theorem validTree_dir {es : FSEntries} (h : validTree (.dir es) = true) :
    validNames es = true ∧ validEntries es = true := by
  simpa [validTree, Bool.and_eq_true] using h

/-- Unfolding of name validity at an entry. -/
theorem validNames_cons {n : List Char} {t : FSTree} {rest : FSEntries}
    (h : validNames (.cons n t rest) = true) :
    n ≠ [] ∧ '/' ∉ n ∧ nameMem n rest = false ∧ validNames rest = true := by
  simp only [validNames, Bool.and_eq_true, Bool.not_eq_true',
    decide_eq_true_eq] at h
  exact ⟨by simpa [List.isEmpty_iff] using h.1.1.1, h.1.1.2, h.1.2, h.2⟩

/-- Unfolding of entry validity at an entry. -/
theorem validEntries_cons {n : List Char} {t : FSTree} {rest : FSEntries}
    (h : validEntries (.cons n t rest) = true) :
    validTree t = true ∧ validEntries rest = true := by
  simpa [validEntries, Bool.and_eq_true] using h

mutual
/-- Every entry emitted by the walk of a subtree located at the joined
path is found in that subtree at the stated relative components. -/
theorem walk_sound (t : FSTree) (p : List (List Char)) (e : TarEntry)
    (hv : validTree t = true) (hp : ∀ c ∈ p, c ≠ [] ∧ '/' ∉ c)
    (he : e ∈ walkTree (joinComponents p) t) :
    ∃ sub, e.name = joinComponents (p ++ sub) ∧
      (∀ c ∈ sub, c ≠ [] ∧ '/' ∉ c) ∧
      ∃ node, lookupPath t sub = some node ∧ matchesNode e node := by
  cases t with
  | file c =>
    have he2 : e = ⟨joinComponents p, false, c⟩ := by
      simpa [walkTree] using he
    exact ⟨[], by simp [he2], by simp,
      FSTree.file c, rfl, by rw [he2]; exact ⟨rfl, rfl⟩⟩
  | dir es =>
    rw [show walkTree (joinComponents p) (.dir es) =
      ⟨joinComponents p, true, []⟩ ::
        walkEntriesAux (joinComponents p) es from rfl] at he
    rcases List.mem_cons.mp he with he2 | he2
    · exact ⟨[], by simp [he2], by simp,
        FSTree.dir es, rfl, by rw [he2]; exact ⟨rfl, rfl⟩⟩
    · obtain ⟨m, sub, hname, hvalid, -, node, hlook, hmatch⟩ :=
        walkEntries_sound es p e (validTree_dir hv).1 (validTree_dir hv).2 hp he2
      exact ⟨m :: sub, hname, hvalid, node, hlook, hmatch⟩
theorem walkEntries_sound (es : FSEntries) (p : List (List Char)) (e : TarEntry)
    (hn : validNames es = true) (hv : validEntries es = true)
    (hp : ∀ c ∈ p, c ≠ [] ∧ '/' ∉ c)
    (he : e ∈ walkEntriesAux (joinComponents p) es) :
    ∃ m sub, e.name = joinComponents (p ++ m :: sub) ∧
      (∀ c ∈ m :: sub, c ≠ [] ∧ '/' ∉ c) ∧ nameMem m es = true ∧
      ∃ node, lookupPath (.dir es) (m :: sub) = some node ∧ matchesNode e node := by
  cases es with
  | nil => simp [walkEntriesAux] at he
  | cons n t rest =>
    obtain ⟨hne, hns, hnm, hrest⟩ := validNames_cons hn
    obtain ⟨hvt, hvrest⟩ := validEntries_cons hv
    rw [show walkEntriesAux (joinComponents p) (.cons n t rest) =
      walkTree (childPath (joinComponents p) n) t ++
        walkEntriesAux (joinComponents p) rest from rfl] at he
    rcases List.mem_append.mp he with he2 | he2
    · rw [← joinComponents_append p n (fun c hc => (hp c hc).1)] at he2
      obtain ⟨sub, hname, hvalid, node, hlook, hmatch⟩ :=
        walk_sound t (p ++ [n]) e hvt
          (by
            intro c hc
            rcases List.mem_append.mp hc with hc2 | hc2
            · exact hp c hc2
            · rw [List.mem_singleton.mp hc2]; exact ⟨hne, hns⟩) he2
      refine ⟨n, sub, by rw [hname]; simp, ?_, by simp [nameMem], node, ?_, hmatch⟩
      · intro c hc
        rcases List.mem_cons.mp hc with rfl | hc2
        · exact ⟨hne, hns⟩
        · exact hvalid c hc2
      · show lookupEntries (.cons n t rest) n sub = some node
        rw [show lookupEntries (.cons n t rest) n sub =
          if n = n then lookupPath t sub else lookupEntries rest n sub from rfl,
          if_pos rfl]
        exact hlook
    · obtain ⟨m, sub, hname, hvalid, hmem, node, hlook, hmatch⟩ :=
        walkEntries_sound rest p e hrest hvrest hp he2
      have hmn : n ≠ m := by
        intro hcontra
        rw [hcontra, hmem] at hnm
        cases hnm
      refine ⟨m, sub, hname, hvalid, by simp [nameMem, hmem], node, ?_, hmatch⟩
      show lookupEntries (.cons n t rest) m sub = some node
      rw [show lookupEntries (.cons n t rest) m sub =
        if n = m then lookupPath t sub else lookupEntries rest m sub from rfl,
        if_neg hmn]
      exact hlook
end

end TrustRootAssembler

namespace TrustRootAssembler

mutual
/-- Every node reachable in a subtree appears in the walk of that subtree,
under the name joined from the location and the relative components. -/
theorem walk_complete (t : FSTree) (p : List (List Char)) (sub : List (List Char))
    (node : FSTree) (hv : validTree t = true) (hp : ∀ c ∈ p, c ≠ [])
    (hl : lookupPath t sub = some node) :
    ∃ e ∈ walkTree (joinComponents p) t,
      e.name = joinComponents (p ++ sub) ∧ matchesNode e node := by
  cases t with
  | file c =>
    cases sub with
    | nil =>
      have hnode : FSTree.file c = node := by simpa [lookupPath] using hl
      exact ⟨⟨joinComponents p, false, c⟩, by simp [walkTree],
        by simp, by rw [← hnode]; exact ⟨rfl, rfl⟩⟩
    | cons m ms => simp [lookupPath] at hl
  | dir es =>
    cases sub with
    | nil =>
      have hnode : FSTree.dir es = node := by simpa [lookupPath] using hl
      exact ⟨⟨joinComponents p, true, []⟩, by simp [walkTree],
        by simp, by rw [← hnode]; exact ⟨rfl, rfl⟩⟩
    | cons m ms =>
      have hl2 : lookupEntries es m ms = some node := hl
      obtain ⟨e, hin, hname, hmatch⟩ := walkEntries_complete es p m ms node
        (validTree_dir hv).1 (validTree_dir hv).2 hp hl2
      exact ⟨e, by
        rw [show walkTree (joinComponents p) (.dir es) =
          ⟨joinComponents p, true, []⟩ ::
            walkEntriesAux (joinComponents p) es from rfl]
        exact List.mem_cons_of_mem _ hin, hname, hmatch⟩
theorem walkEntries_complete (es : FSEntries) (p : List (List Char))
    (m : List Char) (ms : List (List Char)) (node : FSTree)
    (hn : validNames es = true) (hv : validEntries es = true)
    (hp : ∀ c ∈ p, c ≠ [])
    (hl : lookupEntries es m ms = some node) :
    ∃ e ∈ walkEntriesAux (joinComponents p) es,
      e.name = joinComponents (p ++ m :: ms) ∧ matchesNode e node := by
  cases es with
  | nil => simp [lookupEntries] at hl
  | cons n t rest =>
    obtain ⟨hne, hns, hnm2, hrest⟩ := validNames_cons hn
    obtain ⟨hvt, hvrest⟩ := validEntries_cons hv
    rw [show lookupEntries (.cons n t rest) m ms =
      if n = m then lookupPath t ms else lookupEntries rest m ms from rfl] at hl
    by_cases hnm : n = m
    · rw [if_pos hnm] at hl
      obtain ⟨e, hin, hname, hmatch⟩ := walk_complete t (p ++ [n]) ms node hvt
        (by
          intro c hc
          rcases List.mem_append.mp hc with hc2 | hc2
          · exact hp c hc2
          · rw [List.mem_singleton.mp hc2]; exact hne) hl
      refine ⟨e, ?_, ?_, hmatch⟩
      · rw [show walkEntriesAux (joinComponents p) (.cons n t rest) =
          walkTree (childPath (joinComponents p) n) t ++
            walkEntriesAux (joinComponents p) rest from rfl]
        apply List.mem_append_left
        rwa [← joinComponents_append p n hp]
      · rw [hname, hnm]
        simp
    · rw [if_neg hnm] at hl
      obtain ⟨e, hin, hname, hmatch⟩ :=
        walkEntries_complete rest p m ms node hrest hvrest hp hl
      refine ⟨e, ?_, hname, hmatch⟩
      rw [show walkEntriesAux (joinComponents p) (.cons n t rest) =
        walkTree (childPath (joinComponents p) n) t ++
          walkEntriesAux (joinComponents p) rest from rfl]
      exact List.mem_append_right _ hin
end

end TrustRootAssembler

namespace TrustRootAssembler

/-- C6: Archiver round trip - the archive holds exactly the tree's relative
paths with byte-identical contents: the entry list is a permutation of the
tree listing; every entry resolves in the original tree at the components of
its name (soundness of extraction); every node of the tree reachable at a
non-empty relative path yields an entry named by those components
(completeness); the root directory itself gets no entry and paths carry no
added root prefix; an empty source directory yields an empty archive, not an
error; and the two-file scenario yields exactly the two regular-file
entries. -/
theorem C6_archiver_round_trip :
    (∀ t, List.Perm (compressDirectory t) (treeListing t)) ∧
    (∀ t, validTree t = true → ∀ e ∈ compressDirectory t,
      ∃ sub, sub ≠ [] ∧ splitPath e.name = sub ∧
        ∃ node, lookupPath t sub = some node ∧ matchesNode e node) ∧
    (∀ t sub node, validTree t = true → sub ≠ [] →
      lookupPath t sub = some node →
      ∃ e ∈ compressDirectory t,
        e.name = joinComponents sub ∧ matchesNode e node) ∧
    compressDirectory (.dir .nil) = [] ∧
    compressDirectory (.dir (.cons "file1.txt".toList
        (.file [99, 111, 110, 116, 101, 110, 116, 49])
      (.cons "file2.txt".toList
        (.file [99, 111, 110, 116, 101, 110, 116, 50]) .nil))) =
      [⟨"file1.txt".toList, false, [99, 111, 110, 116, 101, 110, 116, 49]⟩,
        ⟨"file2.txt".toList, false, [99, 111, 110, 116, 101, 110, 116, 50]⟩] := by
  refine ⟨compress_perm_treeListing, ?_, ?_, rfl, by decide⟩
  · intro t hv e he
    have he2 : e ∈ treeListing t := (compress_perm_treeListing t).mem_iff.mp he
    cases t with
    | file c => simp [treeListing] at he2
    | dir es =>
      have he3 : e ∈ walkEntriesAux (joinComponents []) es := he2
      obtain ⟨m, sub, hname, hvalid, -, node, hlook, hmatch⟩ :=
        walkEntries_sound es [] e (validTree_dir hv).1 (validTree_dir hv).2
          (by simp) he3
      refine ⟨m :: sub, by simp, ?_, node, hlook, hmatch⟩
      rw [hname]
      exact splitPath_joinComponents (m :: sub) (by simp)
        (fun c hc => (hvalid c hc).2)
  · intro t sub node hv hne hl
    cases t with
    | file c =>
      cases sub with
      | nil => exact absurd rfl hne
      | cons m ms => simp [lookupPath] at hl
    | dir es =>
      cases sub with
      | nil => exact absurd rfl hne
      | cons m ms =>
        obtain ⟨e, hin, hname, hmatch⟩ := walkEntries_complete es [] m ms node
          (validTree_dir hv).1 (validTree_dir hv).2 (by simp) hl
        exact ⟨e, (compress_perm_treeListing (.dir es)).mem_iff.mpr hin,
          hname, hmatch⟩

/-- C6 witness: soundness of extraction applied to the first entry of the
archive of the concrete two-file directory. -/
theorem C6_archiver_round_trip_witness :
    ∃ sub, sub ≠ [] ∧
      splitPath (TarEntry.name ⟨"file1.txt".toList, false,
        [99, 111, 110, 116, 101, 110, 116, 49]⟩) = sub ∧
      ∃ node, lookupPath (.dir (.cons "file1.txt".toList
          (.file [99, 111, 110, 116, 101, 110, 116, 49])
        (.cons "file2.txt".toList
          (.file [99, 111, 110, 116, 101, 110, 116, 50]) .nil))) sub =
        some node ∧
        matchesNode ⟨"file1.txt".toList, false,
          [99, 111, 110, 116, 101, 110, 116, 49]⟩ node :=
  C6_archiver_round_trip.2.1 (.dir (.cons "file1.txt".toList
      (.file [99, 111, 110, 116, 101, 110, 116, 49])
    (.cons "file2.txt".toList
      (.file [99, 111, 110, 116, 101, 110, 116, 50]) .nil))) (by decide)
    ⟨"file1.txt".toList, false, [99, 111, 110, 116, 101, 110, 116, 49]⟩
    (by decide)

end TrustRootAssembler

namespace TrustRootAssembler

/-! Helper facts about the pipeline stages. -/

/-- A name returned by a successful resolution is a collected candidate. -/
theorem getLatest_ok_mem {body suffix m : List Char}
    (h : getLatestMetadataName body suffix = .ok m) :
    m ∈ collectCandidates suffix body := by
  by_cases hemp : collectCandidates suffix body = []
  · unfold getLatestMetadataName at h
    rw [if_pos (by simpa [List.isEmpty_iff] using hemp)] at h
    cases h
  · obtain ⟨m2, hok, hmem, -⟩ := getLatest_mem_max hemp
    rw [h] at hok
    injection hok with hok
    rwa [hok]

/-- A successfully resolved name is never the empty string. -/
theorem resolveLatest_ok_ne_nil {listing : Option (Nat × List Char)}
    {suffix n : List Char} (h : resolveLatest listing suffix = .ok n) :
    n ≠ [] := by
  cases listing with
  | none => simp [resolveLatest] at h
  | some pr =>
    obtain ⟨code, body⟩ := pr
    by_cases hc : code = 200
    · have h2 : getLatestMetadataName body suffix = .ok n := by
        simpa [resolveLatest, hc] using h
      exact isVersionText_ne_nil (collectCandidates_shape (getLatest_ok_mem h2))
    · simp [resolveLatest, hc] at h

/-- The discarded-error name of main: empty exactly on resolution failure. -/
theorem resolvedOrEmpty_spec (listing : Option (Nat × List Char))
    (suffix : List Char) :
    (resolvedOrEmpty listing suffix = [] ∧
      ∃ msg, resolveLatest listing suffix = .error msg) ∨
    (resolveLatest listing suffix = .ok (resolvedOrEmpty listing suffix) ∧
      resolvedOrEmpty listing suffix ≠ []) := by
  unfold resolvedOrEmpty
  cases hres : resolveLatest listing suffix with
  | error msg => exact Or.inl ⟨rfl, msg, rfl⟩
  | ok n => exact Or.inr ⟨rfl, resolveLatest_ok_ne_nil hres⟩

/-- Resolution failure leaves the empty name. -/
theorem resolvedOrEmpty_eq_nil {listing : Option (Nat × List Char)}
    {suffix : List Char} {msg : String}
    (h : resolveLatest listing suffix = .error msg) :
    resolvedOrEmpty listing suffix = [] := by
  unfold resolvedOrEmpty
  rw [h]

/-- Inversion of a successful fetch iteration. -/
theorem fetchStep_some {env : Env} {name : List Char}
    {files files2 : List (List Char × List Nat)}
    (h : fetchStep env name files = some files2) :
    name ≠ [] ∧ env.createOk name = true ∧
      ∃ body, downloadFile (env.download name) = .ok body ∧
        files2 = files ++ [(name, body)] := by
  unfold fetchStep at h
  by_cases h1 : name.isEmpty
  · rw [if_pos h1] at h
    cases h
  · rw [if_neg h1] at h
    by_cases h2 : env.createOk name
    · rw [if_neg (by simp [h2])] at h
      cases hd : downloadFile (env.download name) with
      | error msg => rw [hd] at h; cases h
      | ok body =>
        rw [hd] at h
        injection h with h
        exact ⟨by simpa [List.isEmpty_iff] using h1, h2, body, rfl, h.symm⟩
    · rw [if_pos (by simp [h2])] at h
      cases h

/-- C10 counterexample: in a run in which every stage succeeds - exit code
zero - the trust-store location still exists when the run completes, so it
is not removed after the run. -/
theorem C10_counterexample :
    (runMain happyEnv).exitCode = 0 ∧
      (runMain happyEnv).sigstore.isSome = true := ⟨rfl, rfl⟩

/-- C10 (amended): the trust-store location is wiped immediately before
trust initialization in every run that reaches initialization, but it is not
removed after the run: after any run whose initialization stage ran, the
location still holds the state the initializer left (less the moved-out
targets subtree). -/
theorem C10_trust_store_lifecycle :
    (∀ env s, (runMain env).sigstoreAtInit = some s → s = none) ∧
    (∀ env, Event.initializedTuf ∈ (runMain env).events →
      (runMain env).sigstore.isSome = true) := by
  constructor
  · intro env s
    simp only [runMain]
    repeat' split
    all_goals intro h
    all_goals simp_all
  · intro env
    simp only [runMain]
    repeat' split
    all_goals intro h
    all_goals simp_all

end TrustRootAssembler

namespace TrustRootAssembler

/-- Inversion of a successful directory move. -/
theorem osRenameDir_some {src : Option FSTree} {d : Bool} {t : FSTree}
    (h : osRenameDir src d = some t) : src = some t ∧ d = false := by
  cases src with
  | none => cases h
  | some t2 =>
    have h2 : (if d = true then none else some t2) = some t := h
    by_cases hd : d = true
    · rw [if_pos hd] at h2
      cases h2
    · rw [if_neg hd] at h2
      injection h2 with h2
      exact ⟨by rw [h2], by simpa using hd⟩

/-- A run that ends with exit code zero passed every stage: the temporary
directory was created, all three versioned roles resolved, all four files
downloaded, the trust store was wiped and initialized with a targets
directory present, the status call succeeded, and archiving and compression
succeeded. -/
theorem runMain_success_inversion (env : Env) (h : (runMain env).exitCode = 0) :
    env.mkTempDirOk = true ∧
    resolveLatest env.listing "root.json".toList =
      .ok (resolvedOrEmpty env.listing "root.json".toList) ∧
    resolveLatest env.listing "snapshot.json".toList =
      .ok (resolvedOrEmpty env.listing "snapshot.json".toList) ∧
    resolveLatest env.listing "targets.json".toList =
      .ok (resolvedOrEmpty env.listing "targets.json".toList) ∧
    (∃ b, downloadFile (env.download
      (resolvedOrEmpty env.listing "root.json".toList)) = .ok b) ∧
    (∃ b, downloadFile (env.download
      (resolvedOrEmpty env.listing "snapshot.json".toList)) = .ok b) ∧
    (∃ b, downloadFile (env.download
      (resolvedOrEmpty env.listing "targets.json".toList)) = .ok b) ∧
    (∃ b, downloadFile (env.download "timestamp.json".toList) = .ok b) ∧
    env.removeTufOk = true ∧
    (∃ t, env.tufInit = some (some t)) ∧
    env.rootStatusOk = true ∧
    env.createArchiveOk = true ∧
    env.compressOk = true := by
  simp only [runMain] at h
  by_cases hmk : env.mkTempDirOk
  case neg =>
    rw [if_pos (show (!env.mkTempDirOk) = true by simp [hmk])] at h
    simp at h
  rw [if_neg (show ¬ (!env.mkTempDirOk) = true by simp [hmk])] at h
  by_cases hie : (resolvedOrEmpty env.listing "root.json".toList).isEmpty = true
  case pos =>
    rw [if_pos hie] at h
    simp at h
  rw [if_neg hie] at h
  cases hf1 : fetchStep env
      (resolvedOrEmpty env.listing "root.json".toList) [] with
  | none => simp only [hf1] at h; simp at h
  | some files1 =>
  simp only [hf1] at h
  cases hf2 : fetchStep env
      (resolvedOrEmpty env.listing "snapshot.json".toList) files1 with
  | none => simp only [hf2] at h; simp at h
  | some files2 =>
  simp only [hf2] at h
  cases hf3 : fetchStep env
      (resolvedOrEmpty env.listing "targets.json".toList) files2 with
  | none => simp only [hf3] at h; simp at h
  | some files3 =>
  simp only [hf3] at h
  cases hf4 : fetchStep env "timestamp.json".toList files3 with
  | none => simp only [hf4] at h; simp at h
  | some files4 =>
  simp only [hf4] at h
  by_cases hrm : env.removeTufOk
  case neg =>
    rw [if_pos (show (!env.removeTufOk) = true by simp [hrm])] at h
    simp at h
  rw [if_neg (show ¬ (!env.removeTufOk) = true by simp [hrm])] at h
  cases hti : env.tufInit with
  | none => simp only [hti] at h; simp at h
  | some tgts =>
  simp only [hti] at h
  by_cases hrs : env.rootStatusOk
  case neg =>
    rw [if_pos (show (!env.rootStatusOk) = true by simp [hrs])] at h
    simp at h
  rw [if_neg (show ¬ (!env.rootStatusOk) = true by simp [hrs])] at h
  cases hrn : osRenameDir tgts
      (decide ("targets".toList ∈ files4.map Prod.fst)) with
  | none => simp only [hrn] at h; simp at h
  | some t =>
  simp only [hrn] at h
  by_cases hca : env.createArchiveOk
  case neg =>
    rw [if_pos (show (!env.createArchiveOk) = true by simp [hca])] at h
    simp at h
  rw [if_neg (show ¬ (!env.createArchiveOk) = true by simp [hca])] at h
  by_cases hco : env.compressOk
  case neg =>
    rw [if_pos (show (!env.compressOk) = true by simp [hco])] at h
    simp at h
  obtain ⟨hne1, -, b1, hdl1, -⟩ := fetchStep_some hf1
  obtain ⟨hne2, -, b2, hdl2, -⟩ := fetchStep_some hf2
  obtain ⟨hne3, -, b3, hdl3, -⟩ := fetchStep_some hf3
  obtain ⟨-, -, b4, hdl4, -⟩ := fetchStep_some hf4
  have hok1 := (resolvedOrEmpty_spec env.listing
    "root.json".toList).resolve_left (fun hc => hne1 hc.1)
  have hok2 := (resolvedOrEmpty_spec env.listing
    "snapshot.json".toList).resolve_left (fun hc => hne2 hc.1)
  have hok3 := (resolvedOrEmpty_spec env.listing
    "targets.json".toList).resolve_left (fun hc => hne3 hc.1)
  exact ⟨hmk, hok1.1, hok2.1, hok3.1, ⟨b1, hdl1⟩, ⟨b2, hdl2⟩, ⟨b3, hdl3⟩,
    ⟨b4, hdl4⟩, hrm, ⟨t, by rw [(osRenameDir_some hrn).1]⟩, hrs, hca, hco⟩

end TrustRootAssembler

namespace TrustRootAssembler

/-- After the targets move succeeded, the working repository holds exactly
the four downloaded metadata files plus the moved targets subtree, the
initializer produced that subtree, and the trust-store location retains its
metadata with the targets subtree gone. -/
theorem runMain_moved_inversion (env : Env)
    (h : Event.movedTargets ∈ (runMain env).events) :
    ∃ b1 b2 b3 b4 t,
      env.tufInit = some (some t) ∧
      (runMain env).repoAfterMove = some
        ([(resolvedOrEmpty env.listing "root.json".toList, b1),
          (resolvedOrEmpty env.listing "snapshot.json".toList, b2),
          (resolvedOrEmpty env.listing "targets.json".toList, b3),
          ("timestamp.json".toList, b4)], t) ∧
      (runMain env).sigstore = some ⟨none, true⟩ ∧
      resolveLatest env.listing "root.json".toList =
        .ok (resolvedOrEmpty env.listing "root.json".toList) ∧
      resolveLatest env.listing "snapshot.json".toList =
        .ok (resolvedOrEmpty env.listing "snapshot.json".toList) ∧
      resolveLatest env.listing "targets.json".toList =
        .ok (resolvedOrEmpty env.listing "targets.json".toList) := by
  simp only [runMain] at h ⊢
  by_cases hmk : env.mkTempDirOk
  case neg =>
    rw [if_pos (show (!env.mkTempDirOk) = true by simp [hmk])] at h
    simp at h
  rw [if_neg (show ¬ (!env.mkTempDirOk) = true by simp [hmk])] at h ⊢
  by_cases hie : (resolvedOrEmpty env.listing "root.json".toList).isEmpty = true
  case pos =>
    rw [if_pos hie] at h
    simp at h
  rw [if_neg hie] at h ⊢
  cases hf1 : fetchStep env
      (resolvedOrEmpty env.listing "root.json".toList) [] with
  | none => simp only [hf1] at h; simp at h
  | some files1 =>
  simp only [hf1] at h ⊢
  cases hf2 : fetchStep env
      (resolvedOrEmpty env.listing "snapshot.json".toList) files1 with
  | none => simp only [hf2] at h; simp at h
  | some files2 =>
  simp only [hf2] at h ⊢
  cases hf3 : fetchStep env
      (resolvedOrEmpty env.listing "targets.json".toList) files2 with
  | none => simp only [hf3] at h; simp at h
  | some files3 =>
  simp only [hf3] at h ⊢
  cases hf4 : fetchStep env "timestamp.json".toList files3 with
  | none => simp only [hf4] at h; simp at h
  | some files4 =>
  simp only [hf4] at h ⊢
  by_cases hrm : env.removeTufOk
  case neg =>
    rw [if_pos (show (!env.removeTufOk) = true by simp [hrm])] at h
    simp at h
  rw [if_neg (show ¬ (!env.removeTufOk) = true by simp [hrm])] at h ⊢
  cases hti : env.tufInit with
  | none => simp only [hti] at h; simp at h
  | some tgts =>
  simp only [hti] at h ⊢
  by_cases hrs : env.rootStatusOk
  case neg =>
    rw [if_pos (show (!env.rootStatusOk) = true by simp [hrs])] at h
    simp at h
  rw [if_neg (show ¬ (!env.rootStatusOk) = true by simp [hrs])] at h ⊢
  cases hrn : osRenameDir tgts
      (decide ("targets".toList ∈ files4.map Prod.fst)) with
  | none => simp only [hrn] at h; simp at h
  | some t =>
  simp only [hrn] at h ⊢
  obtain ⟨hne1, -, b1, -, hs1⟩ := fetchStep_some hf1
  obtain ⟨hne2, -, b2, -, hs2⟩ := fetchStep_some hf2
  obtain ⟨hne3, -, b3, -, hs3⟩ := fetchStep_some hf3
  obtain ⟨-, -, b4, -, hs4⟩ := fetchStep_some hf4
  have hok1 := (resolvedOrEmpty_spec env.listing
    "root.json".toList).resolve_left (fun hc => hne1 hc.1)
  have hok2 := (resolvedOrEmpty_spec env.listing
    "snapshot.json".toList).resolve_left (fun hc => hne2 hc.1)
  have hok3 := (resolvedOrEmpty_spec env.listing
    "targets.json".toList).resolve_left (fun hc => hne3 hc.1)
  by_cases hca : env.createArchiveOk
  case neg =>
    rw [if_pos (show (!env.createArchiveOk) = true by simp [hca])] at h ⊢
    refine ⟨b1, b2, b3, b4, t, by rw [(osRenameDir_some hrn).1], ?_, by simp,
      hok1.1, hok2.1, hok3.1⟩
    simp only [hs4, hs3, hs2, hs1]
    simp
  rw [if_neg (show ¬ (!env.createArchiveOk) = true by simp [hca])] at h ⊢
  by_cases hco : env.compressOk
  case neg =>
    rw [if_pos (show (!env.compressOk) = true by simp [hco])] at h ⊢
    refine ⟨b1, b2, b3, b4, t, by rw [(osRenameDir_some hrn).1], ?_, by simp,
      hok1.1, hok2.1, hok3.1⟩
    simp only [hs4, hs3, hs2, hs1]
    simp
  rw [if_neg (show ¬ (!env.compressOk) = true by simp [hco])] at h ⊢
  refine ⟨b1, b2, b3, b4, t, by rw [(osRenameDir_some hrn).1], ?_, by simp,
    hok1.1, hok2.1, hok3.1⟩
  simp only [hs4, hs3, hs2, hs1]
  simp

end TrustRootAssembler

namespace TrustRootAssembler

/-- If the trust-initialization stage ran, every earlier stage succeeded:
all three versioned roles resolved and all four files downloaded. -/
theorem runMain_init_inversion (env : Env)
    (h : Event.initializedTuf ∈ (runMain env).events) :
    resolveLatest env.listing "root.json".toList =
      .ok (resolvedOrEmpty env.listing "root.json".toList) ∧
    resolveLatest env.listing "snapshot.json".toList =
      .ok (resolvedOrEmpty env.listing "snapshot.json".toList) ∧
    resolveLatest env.listing "targets.json".toList =
      .ok (resolvedOrEmpty env.listing "targets.json".toList) ∧
    (∃ b, downloadFile (env.download
      (resolvedOrEmpty env.listing "root.json".toList)) = .ok b) ∧
    (∃ b, downloadFile (env.download
      (resolvedOrEmpty env.listing "snapshot.json".toList)) = .ok b) ∧
    (∃ b, downloadFile (env.download
      (resolvedOrEmpty env.listing "targets.json".toList)) = .ok b) ∧
    (∃ b, downloadFile (env.download "timestamp.json".toList) = .ok b) ∧
    env.removeTufOk = true := by
  simp only [runMain] at h
  by_cases hmk : env.mkTempDirOk
  case neg =>
    rw [if_pos (show (!env.mkTempDirOk) = true by simp [hmk])] at h
    simp at h
  rw [if_neg (show ¬ (!env.mkTempDirOk) = true by simp [hmk])] at h
  by_cases hie : (resolvedOrEmpty env.listing "root.json".toList).isEmpty = true
  case pos =>
    rw [if_pos hie] at h
    simp at h
  rw [if_neg hie] at h
  cases hf1 : fetchStep env
      (resolvedOrEmpty env.listing "root.json".toList) [] with
  | none => simp only [hf1] at h; simp at h
  | some files1 =>
  simp only [hf1] at h
  cases hf2 : fetchStep env
      (resolvedOrEmpty env.listing "snapshot.json".toList) files1 with
  | none => simp only [hf2] at h; simp at h
  | some files2 =>
  simp only [hf2] at h
  cases hf3 : fetchStep env
      (resolvedOrEmpty env.listing "targets.json".toList) files2 with
  | none => simp only [hf3] at h; simp at h
  | some files3 =>
  simp only [hf3] at h
  cases hf4 : fetchStep env "timestamp.json".toList files3 with
  | none => simp only [hf4] at h; simp at h
  | some files4 =>
  simp only [hf4] at h
  by_cases hrm : env.removeTufOk
  case neg =>
    rw [if_pos (show (!env.removeTufOk) = true by simp [hrm])] at h
    simp at h
  obtain ⟨hne1, -, b1, hdl1, -⟩ := fetchStep_some hf1
  obtain ⟨hne2, -, b2, hdl2, -⟩ := fetchStep_some hf2
  obtain ⟨hne3, -, b3, hdl3, -⟩ := fetchStep_some hf3
  obtain ⟨-, -, b4, hdl4, -⟩ := fetchStep_some hf4
  have hok1 := (resolvedOrEmpty_spec env.listing
    "root.json".toList).resolve_left (fun hc => hne1 hc.1)
  have hok2 := (resolvedOrEmpty_spec env.listing
    "snapshot.json".toList).resolve_left (fun hc => hne2 hc.1)
  have hok3 := (resolvedOrEmpty_spec env.listing
    "targets.json".toList).resolve_left (fun hc => hne3 hc.1)
  exact ⟨hok1.1, hok2.1, hok3.1, ⟨b1, hdl1⟩, ⟨b2, hdl2⟩, ⟨b3, hdl3⟩,
    ⟨b4, hdl4⟩, hrm⟩

/-- The manifest is emitted only by a run that ends with exit code zero. -/
theorem runMain_emitted_exit (env : Env)
    (h : Event.emitted ∈ (runMain env).events) :
    (runMain env).exitCode = 0 := by
  simp only [runMain] at h ⊢
  by_cases hmk : env.mkTempDirOk
  case neg =>
    rw [if_pos (show (!env.mkTempDirOk) = true by simp [hmk])] at h
    simp at h
  rw [if_neg (show ¬ (!env.mkTempDirOk) = true by simp [hmk])] at h ⊢
  by_cases hie : (resolvedOrEmpty env.listing "root.json".toList).isEmpty = true
  case pos =>
    rw [if_pos hie] at h
    simp at h
  rw [if_neg hie] at h ⊢
  cases hf1 : fetchStep env
      (resolvedOrEmpty env.listing "root.json".toList) [] with
  | none => simp only [hf1] at h; simp at h
  | some files1 =>
  simp only [hf1] at h ⊢
  cases hf2 : fetchStep env
      (resolvedOrEmpty env.listing "snapshot.json".toList) files1 with
  | none => simp only [hf2] at h; simp at h
  | some files2 =>
  simp only [hf2] at h ⊢
  cases hf3 : fetchStep env
      (resolvedOrEmpty env.listing "targets.json".toList) files2 with
  | none => simp only [hf3] at h; simp at h
  | some files3 =>
  simp only [hf3] at h ⊢
  cases hf4 : fetchStep env "timestamp.json".toList files3 with
  | none => simp only [hf4] at h; simp at h
  | some files4 =>
  simp only [hf4] at h ⊢
  by_cases hrm : env.removeTufOk
  case neg =>
    rw [if_pos (show (!env.removeTufOk) = true by simp [hrm])] at h
    simp at h
  rw [if_neg (show ¬ (!env.removeTufOk) = true by simp [hrm])] at h ⊢
  cases hti : env.tufInit with
  | none => simp only [hti] at h; simp at h
  | some tgts =>
  simp only [hti] at h ⊢
  by_cases hrs : env.rootStatusOk
  case neg =>
    rw [if_pos (show (!env.rootStatusOk) = true by simp [hrs])] at h
    simp at h
  rw [if_neg (show ¬ (!env.rootStatusOk) = true by simp [hrs])] at h ⊢
  cases hrn : osRenameDir tgts
      (decide ("targets".toList ∈ files4.map Prod.fst)) with
  | none => simp only [hrn] at h; simp at h
  | some t =>
  simp only [hrn] at h ⊢
  by_cases hca : env.createArchiveOk
  case neg =>
    rw [if_pos (show (!env.createArchiveOk) = true by simp [hca])] at h
    simp at h
  rw [if_neg (show ¬ (!env.createArchiveOk) = true by simp [hca])] at h ⊢
  by_cases hco : env.compressOk
  case neg =>
    rw [if_pos (show (!env.compressOk) = true by simp [hco])] at h
    simp at h
  rw [if_neg (show ¬ (!env.compressOk) = true by simp [hco])] at h ⊢

end TrustRootAssembler

namespace TrustRootAssembler

/-- Distinct trailing role patterns force distinct version filenames. -/
theorem versionText_dropWhile {suffix m : List Char}
    (h : isVersionText suffix m) :
    m.dropWhile Char.isDigit = '.' :: suffix := by
  obtain ⟨ds, -, hdig, rfl⟩ := h
  exact (takeWhile_digits_append hdig (by decide)).2

/-- Version filenames for different role patterns differ. -/
theorem versionText_ne {s1 s2 m1 m2 : List Char} (h1 : isVersionText s1 m1)
    (h2 : isVersionText s2 m2) (hs : s1 ≠ s2) : m1 ≠ m2 := by
  intro he
  have := versionText_dropWhile h1
  rw [he, versionText_dropWhile h2] at this
  injection this with hx hy
  exact hs hy.symm

/-- A version filename never equals a name that starts with a letter. -/
theorem versionText_ne_fixed {s m fixedName : List Char}
    (h : isVersionText s m)
    (hfix : fixedName.dropWhile Char.isDigit = fixedName)
    (hhead : fixedName.head? ≠ some '.') : m ≠ fixedName := by
  intro he
  have hd := versionText_dropWhile h
  rw [he, hfix] at hd
  rw [hd] at hhead
  simp at hhead

/-- C2: for each versioned metadata role, a failed resolution of the role's
latest filename aborts the run with a non-zero exit status before the
trust-initialization and emission stages run; more generally a run can end
with exit status zero only when every fatal-error source - directory
creation, resolution, download, trust-store wipe and initialization, status
query, directory move, archive creation and compression - succeeded. -/
theorem C2_resolution_failure_aborts :
    (∀ env : Env,
      ((∃ msg, resolveLatest env.listing "root.json".toList = .error msg) ∨
        (∃ msg, resolveLatest env.listing "snapshot.json".toList = .error msg) ∨
        (∃ msg, resolveLatest env.listing "targets.json".toList = .error msg)) →
      (runMain env).exitCode ≠ 0 ∧
      Event.initializedTuf ∉ (runMain env).events ∧
      Event.emitted ∉ (runMain env).events) ∧
    (∀ env : Env, (runMain env).exitCode = 0 →
      env.mkTempDirOk = true ∧
      (resolveLatest env.listing "root.json".toList).isOk = true ∧
      (resolveLatest env.listing "snapshot.json".toList).isOk = true ∧
      (resolveLatest env.listing "targets.json".toList).isOk = true ∧
      (downloadFile (env.download
        (resolvedOrEmpty env.listing "root.json".toList))).isOk = true ∧
      (downloadFile (env.download
        (resolvedOrEmpty env.listing "snapshot.json".toList))).isOk = true ∧
      (downloadFile (env.download
        (resolvedOrEmpty env.listing "targets.json".toList))).isOk = true ∧
      (downloadFile (env.download "timestamp.json".toList)).isOk = true ∧
      env.removeTufOk = true ∧ env.tufInit ≠ none ∧
      env.rootStatusOk = true ∧ env.createArchiveOk = true ∧
      env.compressOk = true) := by
  constructor
  · intro env hfail
    have hexit : (runMain env).exitCode ≠ 0 := by
      intro h0
      obtain ⟨-, hok1, hok2, hok3, -⟩ := runMain_success_inversion env h0
      rcases hfail with ⟨msg, hm⟩ | ⟨msg, hm⟩ | ⟨msg, hm⟩ <;> simp_all
    refine ⟨hexit, ?_, ?_⟩
    · intro hin
      obtain ⟨hok1, hok2, hok3, -⟩ := runMain_init_inversion env hin
      rcases hfail with ⟨msg, hm⟩ | ⟨msg, hm⟩ | ⟨msg, hm⟩ <;> simp_all
    · intro hem
      exact hexit (runMain_emitted_exit env hem)
  · intro env h0
    obtain ⟨hmk, hok1, hok2, hok3, ⟨b1, hd1⟩, ⟨b2, hd2⟩, ⟨b3, hd3⟩, ⟨b4, hd4⟩,
      hrm, ⟨t, hti⟩, hrs, hca, hco⟩ := runMain_success_inversion env h0
    exact ⟨hmk, by rw [hok1]; rfl, by rw [hok2]; rfl, by rw [hok3]; rfl,
      by rw [hd1]; rfl, by rw [hd2]; rfl, by rw [hd3]; rfl, by rw [hd4]; rfl,
      hrm, by rw [hti]; simp, hrs, hca, hco⟩

/-- C2 witness: abort on an unreachable mirror listing. -/
theorem C2_resolution_failure_aborts_witness :
    (runMain envNoListing).exitCode ≠ 0 ∧
    Event.initializedTuf ∉ (runMain envNoListing).events ∧
    Event.emitted ∉ (runMain envNoListing).events :=
  C2_resolution_failure_aborts.1 envNoListing (Or.inl ⟨"http get error", rfl⟩)

end TrustRootAssembler

namespace TrustRootAssembler

/-- A successfully resolved name has the version-filename shape. -/
theorem resolveLatest_ok_shape {listing : Option (Nat × List Char)}
    {suffix n : List Char} (h : resolveLatest listing suffix = .ok n) :
    isVersionText suffix n := by
  cases listing with
  | none => simp [resolveLatest] at h
  | some pr =>
    obtain ⟨code, body⟩ := pr
    by_cases hc : code = 200
    · have h2 : getLatestMetadataName body suffix = .ok n := by
        simpa [resolveLatest, hc] using h
      exact collectCandidates_shape (getLatest_ok_mem h2)
    · simp [resolveLatest, hc] at h

/-- C5: DownloadFile makes a single fail-fast attempt - it succeeds exactly
when the one GET delivers status 200, in which case the destination file
receives exactly the response body, and it errors exactly on a transport
error or a non-OK status; a mirror answering every file request with 404
halts the pipeline with a non-zero exit before the trust-initialization and
emission stages. -/
theorem C5_download_failfast :
    (∀ r b, downloadFile r = .ok b ↔ r = some (200, b)) ∧
    (∀ r, (∃ msg, downloadFile r = .error msg) ↔
      (r = none ∨ ∃ code body, r = some (code, body) ∧ code ≠ 200)) ∧
    (∀ body, ∃ msg, downloadFile (some (404, body)) = .error msg) ∧
    (∀ env : Env, (∀ n, ∃ b, env.download n = some (404, b)) →
      (runMain env).exitCode ≠ 0 ∧
      Event.initializedTuf ∉ (runMain env).events ∧
      Event.emitted ∉ (runMain env).events) := by
  refine ⟨?_, ?_, fun body => ⟨"failed to download file", rfl⟩, ?_⟩
  · intro r b
    cases r with
    | none => simp [downloadFile]
    | some pr =>
      obtain ⟨code, body⟩ := pr
      by_cases hc : code = 200
      · subst hc
        simp [downloadFile]
      · simp [downloadFile, hc]
  · intro r
    cases r with
    | none => simp [downloadFile]
    | some pr =>
      obtain ⟨code, body⟩ := pr
      by_cases hc : code = 200
      · subst hc
        simp [downloadFile]
      · simp [downloadFile, hc]
  · intro env h404
    have hexit : (runMain env).exitCode ≠ 0 := by
      intro h0
      obtain ⟨-, -, -, -, ⟨b, hdl⟩, -⟩ := runMain_success_inversion env h0
      obtain ⟨b4, h4⟩ := h404 (resolvedOrEmpty env.listing "root.json".toList)
      rw [h4] at hdl
      simp [downloadFile] at hdl
    refine ⟨hexit, ?_, fun hem => hexit (runMain_emitted_exit env hem)⟩
    intro hin
    obtain ⟨-, -, -, ⟨b, hdl⟩, -⟩ := runMain_init_inversion env hin
    obtain ⟨b4, h4⟩ := h404 (resolvedOrEmpty env.listing "root.json".toList)
    rw [h4] at hdl
    simp [downloadFile] at hdl

/-- C5 witness: the pipeline-halt conclusion at the all-404 environment. -/
theorem C5_download_failfast_witness :
    (runMain env404).exitCode ≠ 0 ∧
    Event.initializedTuf ∉ (runMain env404).events ∧
    Event.emitted ∉ (runMain env404).events :=
  C5_download_failfast.2.2.2 env404 (fun _ => ⟨[], rfl⟩)

/-- C9: the Repository Restructurer relocates the verified-targets directory
by a single rename that fails exactly when the source does not exist or the
destination already exists; after a successful move the original location no
longer holds the targets subtree while the trust-store metadata remains, and
the working repository holds exactly the four pairwise-distinct metadata
files plus the moved targets subtree; a run whose initialization produced no
targets directory aborts with a non-zero exit and never moves. -/
theorem C9_restructurer_move :
    (∀ (src : Option FSTree) (d : Bool) (t : FSTree),
      osRenameDir src d = some t ↔ src = some t ∧ d = false) ∧
    (∀ env : Env, Event.movedTargets ∈ (runMain env).events →
      ∃ b1 b2 b3 b4 t,
        env.tufInit = some (some t) ∧
        (runMain env).repoAfterMove = some
          ([(resolvedOrEmpty env.listing "root.json".toList, b1),
            (resolvedOrEmpty env.listing "snapshot.json".toList, b2),
            (resolvedOrEmpty env.listing "targets.json".toList, b3),
            ("timestamp.json".toList, b4)], t) ∧
        [resolvedOrEmpty env.listing "root.json".toList,
          resolvedOrEmpty env.listing "snapshot.json".toList,
          resolvedOrEmpty env.listing "targets.json".toList,
          "timestamp.json".toList].Nodup ∧
        (runMain env).sigstore = some ⟨none, true⟩) ∧
    (∀ env : Env, env.tufInit = some none →
      (runMain env).exitCode ≠ 0 ∧
      Event.movedTargets ∉ (runMain env).events) := by
  refine ⟨?_, ?_, ?_⟩
  · intro src d t
    constructor
    · exact osRenameDir_some
    · rintro ⟨rfl, rfl⟩
      rfl
  · intro env hm
    obtain ⟨b1, b2, b3, b4, t, hti, hrepo, hsig, hok1, hok2, hok3⟩ :=
      runMain_moved_inversion env hm
    have hv1 := resolveLatest_ok_shape hok1
    have hv2 := resolveLatest_ok_shape hok2
    have hv3 := resolveLatest_ok_shape hok3
    have hfix : "timestamp.json".toList.dropWhile Char.isDigit =
        "timestamp.json".toList := by decide
    have hhead : ("timestamp.json".toList).head? ≠ some '.' := by decide
    have h12 := versionText_ne hv1 hv2 (by decide)
    have h13 := versionText_ne hv1 hv3 (by decide)
    have h23 := versionText_ne hv2 hv3 (by decide)
    have h1t := versionText_ne_fixed hv1 hfix hhead
    have h2t := versionText_ne_fixed hv2 hfix hhead
    have h3t := versionText_ne_fixed hv3 hfix hhead
    refine ⟨b1, b2, b3, b4, t, hti, hrepo, ?_, hsig⟩
    refine List.nodup_cons.mpr ⟨?_, List.nodup_cons.mpr ⟨?_,
      List.nodup_cons.mpr ⟨?_, List.nodup_singleton _⟩⟩⟩
    · intro hmem
      rcases List.mem_cons.mp hmem with h | h
      · exact h12 h
      rcases List.mem_cons.mp h with h | h
      · exact h13 h
      rcases List.mem_cons.mp h with h | h
      · exact h1t h
      · simp at h
    · intro hmem
      rcases List.mem_cons.mp hmem with h | h
      · exact h23 h
      rcases List.mem_cons.mp h with h | h
      · exact h2t h
      · simp at h
    · intro hmem
      rcases List.mem_cons.mp hmem with h | h
      · exact h3t h
      · simp at h
  · intro env hti
    constructor
    · intro h0
      obtain ⟨-, -, -, -, -, -, -, -, -, ⟨t, hti2⟩, -⟩ :=
        runMain_success_inversion env h0
      rw [hti] at hti2
      simp at hti2
    · intro hm
      obtain ⟨b1, b2, b3, b4, t, hti2, -⟩ := runMain_moved_inversion env hm
      rw [hti] at hti2
      simp at hti2

/-- C9 witness: the move conclusions at the all-success environment. -/
theorem C9_restructurer_move_witness :
    ∃ b1 b2 b3 b4 t,
      happyEnv.tufInit = some (some t) ∧
      (runMain happyEnv).repoAfterMove = some
        ([(resolvedOrEmpty happyEnv.listing "root.json".toList, b1),
          (resolvedOrEmpty happyEnv.listing "snapshot.json".toList, b2),
          (resolvedOrEmpty happyEnv.listing "targets.json".toList, b3),
          ("timestamp.json".toList, b4)], t) ∧
      [resolvedOrEmpty happyEnv.listing "root.json".toList,
        resolvedOrEmpty happyEnv.listing "snapshot.json".toList,
        resolvedOrEmpty happyEnv.listing "targets.json".toList,
        "timestamp.json".toList].Nodup ∧
      (runMain happyEnv).sigstore = some ⟨none, true⟩ :=
  C9_restructurer_move.2.1 happyEnv (by decide)

/-- C10 witness: the amended lifecycle at the all-success environment. -/
theorem C10_trust_store_lifecycle_witness :
    (runMain happyEnv).sigstore.isSome = true :=
  C10_trust_store_lifecycle.2 happyEnv (by decide)

end TrustRootAssembler
